import Mathlib

/-!
Formal model of `master_v2.py` (HTML Processor v2.0).

The file shallow-embeds the core processing functions of the repository
(codec utilities, the bounded image fetcher, the DOM normalizer, the
semantic classifier, the style extractor/optimizer, the CSS image
extractor and the minifying serializer) as executable Lean definitions,
and proves behavioural properties about them.

External collaborators (the HTML parser, the CSS parser, the HTTP layer,
the filesystem) are modelled at their interfaces: the parsed document is
a tree value, the parsed stylesheet is a list of rule values, an HTTP
response is a record of headers plus body chunks, and the filesystem is
the list of already-existing file names.  Python `hash` of a string is
process-randomised, so it is taken as an arbitrary function where needed.
-/

set_option maxRecDepth 100000

namespace MasterV2

/-! ## Character and string utilities -/

/-- ASCII whitespace as removed by Python `str.strip()` / matched by `\s`. -/
def pyIsSpace (c : Char) : Bool :=
  c = ' ' || c = '\t' || c = '\n' || c = '\r' || c = '\x0b' || c = '\x0c'

/-- Characters kept by the `re.sub(r'[^A-Za-z0-9+/=]', '', data)` filter
in `safe_b64decode`. -/
def isB64Kept (c : Char) : Bool :=
  ('A' ≤ c && c ≤ 'Z') || ('a' ≤ c && c ≤ 'z') || ('0' ≤ c && c ≤ '9') ||
  c = '+' || c = '/' || c = '='

/-- Drop the longest suffix whose characters satisfy `p`. -/
def dropEndWhile (p : Char → Bool) (l : List Char) : List Char :=
  (l.reverse.dropWhile p).reverse

/-- Python `str.strip()` (ASCII whitespace). -/
def pyStrip (l : List Char) : List Char :=
  dropEndWhile pyIsSpace (l.dropWhile pyIsSpace)

/-- Python `str.strip()` on `String`. -/
def pyStripS (s : String) : String := ⟨pyStrip s.data⟩

/-- `beginsWith pat l` holds when `l` starts with `pat`. -/
def beginsWith : List Char → List Char → Bool
  | [], _ => true
  | _ :: _, [] => false
  | p :: ps, c :: cs => p = c && beginsWith ps cs

/-- `containsSub pat l`: `pat` occurs as a contiguous substring of `l`
(Python `pat in l`). -/
def containsSub (pat : List Char) : List Char → Bool
  | [] => beginsWith pat []
  | c :: cs => beginsWith pat (c :: cs) || containsSub pat cs

/-- Substring test on `String` (Python `pat in s`). -/
def containsSubS (pat s : String) : Bool := containsSub pat.data s.data

/-- ASCII lower-casing of a character (Python `str.lower()` on ASCII input). -/
def lowerChar (c : Char) : Char :=
  if 'A' ≤ c && c ≤ 'Z' then Char.ofNat (c.toNat + 32) else c

/-- Python `str.lower()` (ASCII). -/
def pyLower (s : String) : String := ⟨s.data.map lowerChar⟩

/-- Python `str.split()` with no argument: split on whitespace runs,
dropping empty pieces.  This is also how BeautifulSoup turns a `class`
attribute into its multi-valued list. -/
def pySplitWs (s : String) : List String :=
  ((s.data.splitOnP pyIsSpace).filter (fun w => w ≠ [])).map (fun w => (⟨w⟩ : String))

/-- Python `' '.join(l)`. -/
def joinSpace : List String → String
  | [] => ""
  | [x] => x
  | x :: y :: r => x ++ " " ++ joinSpace (y :: r)

/-- Python `'\n'.join(l)`. -/
def joinNewline : List String → String
  | [] => ""
  | [x] => x
  | x :: y :: r => x ++ "\n" ++ joinNewline (y :: r)

/-! ## `safe_b64decode` (master_v2.py lines 97-108)

`base64.b64decode` (CPython `binascii.a2b_base64`, non-strict mode) is
modelled exactly: characters outside the alphabet are skipped, a pad
character is counted only once two data characters of the current quad
have been seen, decoding stops (discarding the rest of the input) once
quad position plus pads reaches four, and input ending in the middle of
a quad is an error (`none`). -/

/-- Value of a base64 alphabet character, `none` for `'='` and anything else. -/
def b64val (c : Char) : Option Nat :=
  if 'A' ≤ c && c ≤ 'Z' then some (c.toNat - 65)
  else if 'a' ≤ c && c ≤ 'z' then some (c.toNat - 97 + 26)
  else if '0' ≤ c && c ≤ '9' then some (c.toNat - 48 + 52)
  else if c = '+' then some 62
  else if c = '/' then some 63
  else none

/-- Bytes emitted when padding closes a quad at position `qp`. -/
def b64emitFinal (qp lc : Nat) : List Nat :=
  if qp = 2 then [(lc >>> 4) % 256]
  else if qp = 3 then [(lc >>> 10) % 256, (lc >>> 2) % 256]
  else []

/-- Core of `binascii.a2b_base64` (non-strict): input, quad position,
accumulated bits, pads seen. -/
def b64core : List Char → Nat → Nat → Nat → Option (List Nat)
  | [], qp, _, _ => if qp = 0 then some [] else none
  | c :: rest, qp, lc, pads =>
    if c = '=' then
      if 2 ≤ qp then
        if 4 ≤ qp + (pads + 1) then some (b64emitFinal qp lc)
        else b64core rest qp lc (pads + 1)
      else b64core rest qp lc pads
    else
      match b64val c with
      | some v =>
        let lc2 := lc * 64 + v
        if qp = 3 then
          match b64core rest 0 0 pads with
          | some bs => some ([(lc2 >>> 16) % 256, (lc2 >>> 8) % 256, lc2 % 256] ++ bs)
          | none => none
        else b64core rest (qp + 1) lc2 pads
      | none => b64core rest qp lc pads

/-- `base64.b64decode`, `none` on error. -/
def b64decode (l : List Char) : Option (List Nat) := b64core l 0 0 0

/-- The padding step of `safe_b64decode`:
`if missing_padding: data += '=' * (4 - missing_padding)`. -/
def padB64 (l : List Char) : List Char :=
  if l.length % 4 = 0 then l else l ++ List.replicate (4 - l.length % 4) '='

/-- `safe_b64decode` (master_v2.py lines 97-108): strip, remove all
characters outside `[A-Za-z0-9+/=]`, pad to a multiple of four, decode;
any decoding error yields `none`. -/
def safe_b64decode (s : String) : Option (List Nat) :=
  b64decode (padB64 ((pyStrip s.data).filter isB64Kept))

/-! ## MD5 (used by `extract_style_tags` through `hashlib.md5`) -/

/-- UTF-8 encoding of a character sequence (Python `str.encode()`). -/
def utf8Bytes : List Char → List Nat
  | [] => []
  | c :: cs =>
    let n := c.toNat
    (if n < 128 then [n]
     else if n < 2048 then [192 + n / 64, 128 + n % 64]
     else if n < 65536 then [224 + n / 4096, 128 + (n / 64) % 64, 128 + n % 64]
     else [240 + n / 262144, 128 + (n / 4096) % 64, 128 + (n / 64) % 64, 128 + n % 64])
    ++ utf8Bytes cs

/-- MD5 round constants. -/
def md5K : List Nat := [
  0xd76aa478, 0xe8c7b756, 0x242070db, 0xc1bdceee,
  0xf57c0faf, 0x4787c62a, 0xa8304613, 0xfd469501,
  0x698098d8, 0x8b44f7af, 0xffff5bb1, 0x895cd7be,
  0x6b901122, 0xfd987193, 0xa679438e, 0x49b40821,
  0xf61e2562, 0xc040b340, 0x265e5a51, 0xe9b6c7aa,
  0xd62f105d, 0x02441453, 0xd8a1e681, 0xe7d3fbc8,
  0x21e1cde6, 0xc33707d6, 0xf4d50d87, 0x455a14ed,
  0xa9e3e905, 0xfcefa3f8, 0x676f02d9, 0x8d2a4c8a,
  0xfffa3942, 0x8771f681, 0x6d9d6122, 0xfde5380c,
  0xa4beea44, 0x4bdecfa9, 0xf6bb4b60, 0xbebfbc70,
  0x289b7ec6, 0xeaa127fa, 0xd4ef3085, 0x04881d05,
  0xd9d4d039, 0xe6db99e5, 0x1fa27cf8, 0xc4ac5665,
  0xf4292244, 0x432aff97, 0xab9423a7, 0xfc93a039,
  0x655b59c3, 0x8f0ccc92, 0xffeff47d, 0x85845dd1,
  0x6fa87e4f, 0xfe2ce6e0, 0xa3014314, 0x4e0811a1,
  0xf7537e82, 0xbd3af235, 0x2ad7d2bb, 0xeb86d391]

/-- MD5 per-round left-rotation amounts. -/
def md5S : List Nat := [
  7, 12, 17, 22, 7, 12, 17, 22, 7, 12, 17, 22, 7, 12, 17, 22,
  5, 9, 14, 20, 5, 9, 14, 20, 5, 9, 14, 20, 5, 9, 14, 20,
  4, 11, 16, 23, 4, 11, 16, 23, 4, 11, 16, 23, 4, 11, 16, 23,
  6, 10, 15, 21, 6, 10, 15, 21, 6, 10, 15, 21, 6, 10, 15, 21]

/-- 32-bit left rotation. -/
def rotl32 (x n : Nat) : Nat := ((x <<< n) ||| (x >>> (32 - n))) % 4294967296

/-- MD5 round function, by round index. -/
def md5F (i b c d : Nat) : Nat :=
  if i < 16 then (b &&& c) ||| ((4294967295 - b) &&& d)
  else if i < 32 then (d &&& b) ||| ((4294967295 - d) &&& c)
  else if i < 48 then b ^^^ c ^^^ d
  else c ^^^ (b ||| (4294967295 - d))

/-- MD5 message word index, by round index. -/
def md5G (i : Nat) : Nat :=
  if i < 16 then i
  else if i < 32 then (5 * i + 1) % 16
  else if i < 48 then (3 * i + 5) % 16
  else (7 * i) % 16

/-- One of the 64 MD5 rounds. -/
def md5Step (M : List Nat) (st : Nat × Nat × Nat × Nat) (i : Nat) :
    Nat × Nat × Nat × Nat :=
  let (a, b, c, d) := st
  let f := (md5F i b c d + a + md5K.getD i 0 + M.getD (md5G i) 0) % 4294967296
  (d, (b + rotl32 f (md5S.getD i 0)) % 4294967296, b, c)

/-- Little-endian 32-bit word from four bytes. -/
def leWord (b0 b1 b2 b3 : Nat) : Nat := b0 + 256 * b1 + 65536 * b2 + 16777216 * b3

/-- The sixteen little-endian words of a 64-byte chunk. -/
def chunkWords : List Nat → List Nat
  | b0 :: b1 :: b2 :: b3 :: rest => leWord b0 b1 b2 b3 :: chunkWords rest
  | _ => []

/-- Process one 64-byte chunk. -/
def md5Chunk (st0 : Nat × Nat × Nat × Nat) (chunk : List Nat) :
    Nat × Nat × Nat × Nat :=
  let M := chunkWords chunk
  let r := (List.range 64).foldl (md5Step M) st0
  ((st0.1 + r.1) % 4294967296, (st0.2.1 + r.2.1) % 4294967296,
   (st0.2.2.1 + r.2.2.1) % 4294967296, (st0.2.2.2 + r.2.2.2) % 4294967296)

/-- Process a padded message 64 bytes at a time (the padded message length
is a multiple of 64, so the buffer is empty when the input runs out). -/
def md5Blocks (st : Nat × Nat × Nat × Nat) (buf : List Nat) :
    List Nat → Nat × Nat × Nat × Nat
  | [] => if buf = [] then st else md5Chunk st buf
  | b :: rest =>
    if (buf ++ [b]).length = 64 then md5Blocks (md5Chunk st (buf ++ [b])) [] rest
    else md5Blocks st (buf ++ [b]) rest

/-- The eight little-endian bytes of the 64-bit message bit length. -/
def lenBytesLE (n : Nat) : List Nat :=
  [n % 256, (n >>> 8) % 256, (n >>> 16) % 256, (n >>> 24) % 256,
   (n >>> 32) % 256, (n >>> 40) % 256, (n >>> 48) % 256, (n >>> 56) % 256]

/-- MD5 padding: `0x80`, zeros to 56 mod 64, 64-bit little-endian bit length. -/
def md5padMsg (msg : List Nat) : List Nat :=
  msg ++ [128] ++ List.replicate ((119 - msg.length % 64) % 64) 0 ++
    lenBytesLE ((msg.length * 8) % 18446744073709551616)

/-- Lower-case hexadecimal digit. -/
def toHexDigit (n : Nat) : Char :=
  if n < 10 then Char.ofNat (48 + n) else Char.ofNat (87 + n)

/-- Two hex digits of a byte. -/
def byteHex (b : Nat) : List Char := [toHexDigit (b / 16), toHexDigit (b % 16)]

/-- Little-endian bytes of a 32-bit word. -/
def wordLEBytes (w : Nat) : List Nat :=
  [w % 256, (w >>> 8) % 256, (w >>> 16) % 256, (w >>> 24) % 256]

/-- `hashlib.md5(s.encode()).hexdigest()`. -/
def md5hex (s : String) : String :=
  let msg := md5padMsg (utf8Bytes s.data)
  let r := md5Blocks (1732584193, 4023233417, 2562383102, 271733878) [] msg
  ⟨((wordLEBytes r.1 ++ wordLEBytes r.2.1 ++ wordLEBytes r.2.2.1 ++
     wordLEBytes r.2.2.2).map byteHex).flatten⟩

/-- `hashlib.md5(s.encode()).hexdigest()[:8]` as used by `extract_style_tags`. -/
def md5hex8 (s : String) : String := ⟨(md5hex s).data.take 8⟩

/-! ## The document tree

A BeautifulSoup document is modelled as a forest of nodes.  An element
carries a numeric label `id` standing for the Python object identity of
the corresponding `Tag` (used to model iteration over a `find_all`
snapshot while the tree is being mutated); attributes are an association
list.  The `class` attribute is stored as its textual value;
BeautifulSoup's multi-valued view of it is `pySplitWs`, and writing a
class list back stores the space-joined text.  Node and forest are a
mutual pair so that every pass is a structurally recursive function. -/

mutual

inductive LNode where
  | elem (id : Nat) (tag : String) (attrs : List (String × String)) (children : LForest)
  | text (s : String)
  | comment (s : String)

inductive LForest where
  | nil
  | cons (n : LNode) (f : LForest)

end

/-- Build a forest from a list of nodes (used to write concrete documents). -/
def LForest.ofList : List LNode → LForest
  | [] => .nil
  | n :: ns => .cons n (LForest.ofList ns)

/-- Child at index `j` of a forest. -/
def LForest.get? : LForest → Nat → Option LNode
  | .nil, _ => none
  | .cons n _, 0 => some n
  | .cons _ f, j + 1 => f.get? j

/-- Lookup in a string-keyed association list: the value of the first
entry with key `k`. -/
def assocFind {α : Type} (l : List (String × α)) (k : String) : Option α :=
  (l.find? (fun p => p.1 = k)).map Prod.snd

/-- Keyed update of an association list, the common shape of Python
`dict`/`cssutils` assignment: an existing entry is rewritten in place to
`f` of its old value (keeping its position), a missing key is appended
with value `x`. -/
def assocUpd {α : Type} (l : List (String × α)) (k : String) (f : α → α) (x : α) :
    List (String × α) :=
  if l.any (fun p => p.1 = k) then l.map (fun p => if p.1 = k then (k, f p.2) else p)
  else l ++ [(k, x)]

/-- First value bound to attribute `n` (Python `tag.get(n)`). -/
def attrFind (a : List (String × String)) (n : String) : Option String :=
  assocFind a n

/-- Delete attribute `n` (Python `del tag[n]`). -/
def attrRemove (a : List (String × String)) (n : String) : List (String × String) :=
  a.filter (fun p => p.1 ≠ n)

/-- Set attribute `n` to `v` (Python `tag[n] = v`), keeping its position
when present. -/
def attrSet (a : List (String × String)) (n v : String) : List (String × String) :=
  assocUpd a n (fun _ => v) v

mutual

/-- Element labels of a subtree, in document order. -/
def allIdsN : LNode → List Nat
  | .elem i _ _ ch => i :: allIds ch
  | _ => []

/-- Element labels of a forest, in document order. -/
def allIds : LForest → List Nat
  | .nil => []
  | .cons n f => allIdsN n ++ allIds f

end

mutual

/-- Text content of one node. -/
def textOfN : LNode → String
  | .elem _ _ _ ch => textOf ch
  | .text s => s
  | .comment _ => ""

/-- Concatenated text-node content of a forest: `tag.text` (`get_text()`,
which since bs4 4.9 skips comments). -/
def textOf : LForest → String
  | .nil => ""
  | .cons n f => textOfN n ++ textOf f

end

/-- Whether a forest has an element among its top-level nodes.  Since any
deeper element sits below a top-level element, this decides
`tag.find_all() != []` (existence of element descendants). -/
def hasElem : LForest → Bool
  | .nil => false
  | .cons (.elem _ _ _ _) _ => true
  | .cons _ f => hasElem f

/-- Node lookup by path (a non-empty list of child indices from the
forest roots). -/
def nodeAt (f : LForest) : List Nat → Option LNode
  | [] => none
  | [j] => f.get? j
  | j :: rest =>
    match f.get? j with
    | some (.elem _ _ _ ch) => nodeAt ch rest
    | _ => none

/-! ## `clean_html` (master_v2.py lines 180-210) -/

/-- The structural comment markers of `clean_html` (line 184). -/
def structuralMarkers : List String := ["HEADER", "MAIN", "FOOTER", "SECTION"]

/-- Whether `clean_html` keeps a comment: case-sensitive substring match
against the structural markers. -/
def keepsComment (s : String) : Bool :=
  structuralMarkers.any (fun m => containsSubS m s)

mutual

/-- Comment-removal pass of `clean_html`, below one node. -/
def removeCommentsN : LNode → LNode
  | .elem i t a ch => .elem i t a (removeComments ch)
  | n => n

/-- Comment-removal pass of `clean_html`: extract every comment whose
text contains no structural marker.  (`extract` on a string node only
detaches that node, so a recursive filter is an exact model of the
snapshot loop.) -/
def removeComments : LForest → LForest
  | .nil => .nil
  | .cons (.comment s) f =>
    if keepsComment s then .cons (.comment s) (removeComments f) else removeComments f
  | .cons n f => .cons (removeCommentsN n) (removeComments f)

end

/-- The tags considered by the empty-tag pass: `find_all(["div","span","p"])`. -/
def prunableTags : List String := ["div", "span", "p"]

/-- The emptiness test of the loop body:
`not tag.text.strip() and not tag.find_all()`. -/
def emptyCond (n : LNode) : Bool :=
  match n with
  | .elem _ _ _ ch => pyStripS (textOf ch) = "" && !hasElem ch
  | _ => false

mutual

/-- Contribution of one node to the `find_all(["div","span","p"])` snapshot. -/
def pruneSnapshotN : LNode → List Nat
  | .elem i t _ ch => (if t ∈ prunableTags then [i] else []) ++ pruneSnapshot ch
  | _ => []

/-- The `find_all(["div","span","p"])` snapshot: labels of matching
elements in document order, taken before any mutation. -/
def pruneSnapshot : LForest → List Nat
  | .nil => []
  | .cons n f => pruneSnapshotN n ++ pruneSnapshot f

end

mutual

/-- Search one node (and its subtree) for the element labelled `i`. -/
def findByIdN (i : Nat) : LNode → Option LNode
  | .elem j t a ch =>
    if j = i then some (.elem j t a ch)
    else findById i ch
  | _ => none

/-- Look up the element with label `i` in the current forest. -/
def findById (i : Nat) : LForest → Option LNode
  | .nil => none
  | .cons n f =>
    match findByIdN i n with
    | some r => some r
    | none => findById i f

end

mutual

/-- Remove the element labelled `i` below one node. -/
def removeByIdN (i : Nat) : LNode → LNode
  | .elem j t a ch => .elem j t a (removeById i ch)
  | n => n

/-- Model of `tag.decompose()`: remove the element with label `i` (with
its whole subtree) from the forest. -/
def removeById (i : Nat) : LForest → LForest
  | .nil => .nil
  | .cons (.elem j t a ch) f =>
    if j = i then removeById i f
    else .cons (.elem j t a (removeById i ch)) (removeById i f)
  | .cons n f => .cons n (removeById i f)

end

/-- The empty-tag loop of `clean_html` (lines 188-190): iterate over the
snapshot, re-evaluating the emptiness test against the current (already
mutated) tree, decomposing when it holds. -/
def runPruneLoop : List Nat → LForest → LForest
  | [], f => f
  | i :: is, f =>
    match findById i f with
    | some n => if emptyCond n then runPruneLoop is (removeById i f) else runPruneLoop is f
    | none => runPruneLoop is f

/-- Empty-tag pass of `clean_html` as the source executes it. -/
def removeEmptyLoop (f : LForest) : LForest := runPruneLoop (pruneSnapshot f) f

/-- Whether a node is removed by the empty-tag pass, judged on its own
subtree: a `div`/`span`/`p` with no non-whitespace text and no element
descendant. -/
def prunable (n : LNode) : Bool :=
  match n with
  | .elem _ t _ _ => t ∈ prunableTags && emptyCond n
  | _ => false

mutual

/-- Specification reading of the empty-tag pass, below one kept node. -/
def pruneEmptySpecN : LNode → LNode
  | .elem i t a ch => .elem i t a (pruneEmptySpec ch)
  | n => n

/-- Specification reading of the empty-tag pass (§4.1): one non-recursive
sweep removing exactly the nodes that are empty in the input; nodes that
only become empty because of removals are kept. -/
def pruneEmptySpec : LForest → LForest
  | .nil => .nil
  | .cons n f =>
    if prunable n then pruneEmptySpec f
    else .cons (pruneEmptySpecN n) (pruneEmptySpec f)

end

mutual

/-- Inline-script pass, below one kept node. -/
def removeInlineScriptsN : LNode → LNode
  | .elem i t a ch => .elem i t a (removeInlineScripts ch)
  | n => n

/-- Inline-script pass: remove every `script` element without a truthy
`src` attribute (lines 193-195). -/
def removeInlineScripts : LForest → LForest
  | .nil => .nil
  | .cons (.elem i t a ch) f =>
    if t = "script" && (attrFind a "src").getD "" = "" then removeInlineScripts f
    else .cons (.elem i t a (removeInlineScripts ch)) (removeInlineScripts f)
  | .cons n f => .cons n (removeInlineScripts f)

end

/-- Whether the meta pass keeps a `meta` element (lines 198-201):
a truthy `charset`, a `name` of `viewport`/`description`, or a truthy
`property` starting with `og:`. -/
def keepsMeta (a : List (String × String)) : Bool :=
  (attrFind a "charset").getD "" ≠ "" ||
  ((attrFind a "name").getD "") ∈ (["viewport", "description"] : List String) ||
  ((attrFind a "property").getD "" ≠ "" &&
    beginsWith "og:".data ((attrFind a "property").getD "").data)

mutual

/-- Meta pass, below one kept node. -/
def removeMetasN : LNode → LNode
  | .elem i t a ch => .elem i t a (removeMetas ch)
  | n => n

/-- Meta pass of `clean_html`. -/
def removeMetas : LForest → LForest
  | .nil => .nil
  | .cons (.elem i t a ch) f =>
    if t = "meta" && !keepsMeta a then removeMetas f
    else .cons (.elem i t a (removeMetas ch)) (removeMetas f)
  | .cons n f => .cons n (removeMetas f)

end

mutual

/-- Tag-aliasing pass on one node. -/
def renameBIN : LNode → LNode
  | .elem i t a ch =>
    .elem i (if t = "b" then "strong" else if t = "i" then "em" else t) a (renameBI ch)
  | n => n

/-- Tag-normalisation pass: `b` to `strong`, `i` to `em` (lines 204-207),
attributes and children preserved. -/
def renameBI : LForest → LForest
  | .nil => .nil
  | .cons n f => .cons (renameBIN n) (renameBI f)

end

/-- `clean_html` (lines 180-210): comments, empty tags, inline scripts,
meta tags, tag aliasing, in source order. -/
def clean_html (f : LForest) : LForest :=
  renameBI (removeMetas (removeInlineScripts (removeEmptyLoop (removeComments f))))

/-! ## `semantic_conversion` (master_v2.py lines 212-252) -/

/-- `' '.join(div.get("class", [])).lower()`. -/
def classesText (a : List (String × String)) : String :=
  pyLower (joinSpace (pySplitWs ((attrFind a "class").getD "")))

/-- `(div.get("id") or "").lower()`. -/
def idText (a : List (String × String)) : String :=
  pyLower ((attrFind a "id").getD "")

/-- `any(keyword in classes or keyword in div_id for keyword in kws)`. -/
def kwAny (classes divId : String) (kws : List String) : Bool :=
  kws.any (fun k => containsSubS k classes || containsSubS k divId)

/-- The `if`/`elif` chain of `semantic_conversion`: the new tag name for a
`div` with the given class text and id text. -/
def divNewName (classes divId : String) : String :=
  if kwAny classes divId ["header", "top", "masthead"] then "header"
  else if kwAny classes divId ["footer", "bottom"] then "footer"
  else if kwAny classes divId ["main", "content", "primary"] then "main"
  else if kwAny classes divId ["section", "block"] then "section"
  else if kwAny classes divId ["nav", "menu", "navigation"] then "nav"
  else if kwAny classes divId ["article", "post", "entry"] then "article"
  else "div"

mutual

/-- Semantic conversion of one node. -/
def semantic_conversionN : LNode → LNode
  | .elem i t a ch =>
    .elem i (if t = "div" then divNewName (classesText a) (idText a) else t) a
      (semantic_conversion ch)
  | n => n

/-- `semantic_conversion`: rename every `div` according to the keyword
chain; all other nodes keep their tag.  (`find_all("div")` snapshots the
divs before any rename, and a rename touches only the node itself, so the
loop is an elementwise map.) -/
def semantic_conversion : LForest → LForest
  | .nil => .nil
  | .cons n f => .cons (semantic_conversionN n) (semantic_conversion f)

end

/-- The specification's ordered keyword table (§4.2). -/
def semanticTable : List (List String × String) :=
  [(["header", "top", "masthead"], "header"),
   (["footer", "bottom"], "footer"),
   (["main", "content", "primary"], "main"),
   (["section", "block"], "section"),
   (["nav", "menu", "navigation"], "nav"),
   (["article", "post", "entry"], "article")]

/-- Modelled from the spec (§4.2): evaluate the ordered table
top-to-bottom and stop at the first matching category. -/
def tableFirstMatch (classes divId : String) : Option String :=
  semanticTable.findSome? (fun e => if kwAny classes divId e.1 then some e.2 else none)

/-! ## `extract_style_tags` (master_v2.py lines 339-368) -/

mutual

/-- First loop of `extract_style_tags`, below one kept node. -/
def removeStyleBlocksN : LNode → LNode × List String
  | .elem i t a ch =>
    let r := removeStyleBlocks ch
    (.elem i t a r.1, r.2)
  | n => (n, [])

/-- First loop of `extract_style_tags`: collect `style_tag.string` for
every `<style>` block (when truthy) and decompose the block.  `tag.string`
is the tag's sole string child, if any. -/
def removeStyleBlocks : LForest → LForest × List String
  | .nil => (.nil, [])
  | .cons (.elem i t a ch) f =>
    if t = "style" then
      let r := removeStyleBlocks f
      (r.1,
       (match ch with
        | .cons (.text s) .nil => if s = "" then [] else [s]
        | _ => []) ++ r.2)
    else
      let rc := removeStyleBlocks ch
      let rf := removeStyleBlocks f
      (.cons (.elem i t a rc.1) rf.1, rc.2 ++ rf.2)
  | .cons n f =>
    let r := removeStyleBlocks f
    (.cons n r.1, r.2)

end

/-- The class name synthesised for an inline style text. -/
def inlineClass (s : String) : String := "inline_" ++ md5hex8 s

/-- The rule emitted for an inline style text:
`f".{class_name} {{{style_content}}}"`. -/
def inlineRule (s : String) : String :=
  "." ++ inlineClass s ++ " \x7b" ++ s ++ "\x7d"

/-- `el["class"] = (el.get("class") or []) + [class_name]`: append the
class to the multi-valued class list and store it space-joined. -/
def appendClass (a : List (String × String)) (cls : String) : List (String × String) :=
  attrSet a "class" (joinSpace (pySplitWs ((attrFind a "class").getD "") ++ [cls]))

mutual

/-- Second loop of `extract_style_tags`, on one node: the
`find_all(style=True)` snapshot is document-ordered and each iteration
mutates only the current element and the `seen_rules` set, so the loop is
a document-order fold.  Returns the rewritten node, the rules appended to
`combined_css`, and the updated `seen_rules` (kept as an
insertion-ordered list). -/
def convInline : LNode → List String → LNode × List String × List String
  | .elem i t a ch, seen =>
    match attrFind a "style" with
    | some sv =>
      let s := pyStripS sv
      if s = "" then
        let r := convInlineList ch seen
        (.elem i t a r.1, r.2)
      else
        let a2 := attrRemove (appendClass a (inlineClass s)) "style"
        let er := if inlineRule s ∈ seen then (([] : List String), seen)
                  else ([inlineRule s], seen ++ [inlineRule s])
        let r := convInlineList ch er.2
        (.elem i t a2 r.1, er.1 ++ r.2.1, r.2.2)
    | none =>
      let r := convInlineList ch seen
      (.elem i t a r.1, r.2)
  | n, seen => (n, [], seen)

/-- Second loop of `extract_style_tags`, over a forest. -/
def convInlineList : LForest → List String → LForest × List String × List String
  | .nil, seen => (.nil, [], seen)
  | .cons n f, seen =>
    let r1 := convInline n seen
    let r2 := convInlineList f r1.2.2
    (.cons r1.1 r2.1, r1.2.1 ++ r2.2.1, r2.2.2)

end

/-- `extract_style_tags`: style blocks first, then inline styles; the
pieces of `combined_css` are the block texts followed by the deduplicated
inline rules. -/
def extract_style_tags (f : LForest) : LForest × List String × List String :=
  let rb := removeStyleBlocks f
  let rc := convInlineList rb.1 []
  (rc.1, rb.2, rc.2.1)

/-- The string `extract_style_tags` returns: `"\n".join(combined_css)`. -/
def extract_style_tags_css (f : LForest) : String :=
  joinNewline ((extract_style_tags f).2.1 ++ (extract_style_tags f).2.2)

/-! ## `optimize_css` (master_v2.py lines 370-397)

The CSS parser (`cssutils.parseString`) is an external library; the
stylesheet it produces is modelled as a list of top-level rules.  A style
rule is a selector text plus its effective declarations; every other kind
of top-level rule (`@media`, `@import`, `@font-face`, comments, ...) only
matters to `optimize_css` through not being a `STYLE_RULE`. -/

inductive CssRule where
  | style (selector : String) (decls : List (String × String))
  | atRule (name : String) (body : String)
  | comment (s : String)
deriving Repr, DecidableEq

/-- Whether a rule is a `STYLE_RULE`. -/
def CssRule.isStyle : CssRule → Bool
  | .style _ _ => true
  | _ => false

/-- `seen_rules[selector].style[prop.name] = prop.value` for every
property of a later rule: `cssutils`' `__setitem__` updates an existing
property in place and appends a new one. -/
def mergeDecls (d later : List (String × String)) : List (String × String) :=
  later.foldl (fun acc p => attrSet acc p.1 p.2) d

/-- One iteration of the dedup/merge loop of `optimize_css`: a new
selector is inserted at the end (Python dicts preserve insertion order),
an existing one has the later declarations merged in. -/
def insStyleRule (acc : List (String × List (String × String))) (sel : String)
    (ds : List (String × String)) : List (String × List (String × String)) :=
  assocUpd acc sel (fun old => mergeDecls old ds) ds

/-- Loop body of the dedup/merge walk: `if rule.type == rule.STYLE_RULE`. -/
def optStep (acc : List (String × List (String × String))) : CssRule →
    List (String × List (String × String))
  | CssRule.style sel ds => insStyleRule acc sel ds
  | _ => acc

/-- Core of `optimize_css` (lines 375-391): walk the parsed rules, keep
only `STYLE_RULE`s, merge rules sharing a selector, then rebuild the
sheet from the merged rules in first-seen order. -/
def optimize_rules (rules : List CssRule) : List CssRule :=
  (rules.foldl optStep []).map (fun e => CssRule.style e.1 e.2)

/-- `optimize_css`: the whole body runs inside `try`/`except`, and any
failure (of the external parser, or of re-serialisation) returns the
original text unchanged.  The parser and serialiser are parameters; a
`none` result stands for a raised exception. -/
def optimize_css (parse : String → Option (List CssRule))
    (serialize : List CssRule → Option String) (css_text : String) : String :=
  match parse css_text with
  | none => css_text
  | some rules =>
    match serialize (optimize_rules rules) with
    | none => css_text
    | some out => out

/-! ## `download_image_safe` (master_v2.py lines 138-175)

An HTTP response is modelled as its observable interface: whether the
request (or `raise_for_status`) raised a `RequestException`, the declared
`Content-Length` (as a number, absent meaning the `0` default of
`headers.get('Content-Length', 0)`), the declared `Content-Type`, and
the body as the chunk sequence `iter_content` would yield.  Alongside the
returned content the model counts the chunks read, so that "rejects
before reading the body" is visible. -/

structure HttpResponse where
  requestFails : Bool
  contentLength : Option Nat
  contentType : String
  chunks : List (List Nat)

/-- The chunked download loop: accumulate chunks, abort with `none` as
soon as the accumulated size exceeds the budget. -/
def streamChunks (maxBytes : Nat) : List (List Nat) → List Nat → Nat →
    Option (List Nat) × Nat
  | [], acc, read => (some acc, read)
  | ch :: rest, acc, read =>
    if (acc ++ ch).length > maxBytes then (none, read + 1)
    else streamChunks maxBytes rest (acc ++ ch) (read + 1)

/-- `download_image_safe`: returns the content (or `none`) together with
the number of body chunks that were read. -/
def download_image_safe (resp : HttpResponse) (maxSizeMb : Nat) :
    Option (List Nat) × Nat :=
  if resp.requestFails then (none, 0)
  else if resp.contentLength.getD 0 > maxSizeMb * 1024 * 1024 then (none, 0)
  else if !beginsWith "image/".data resp.contentType.data then (none, 0)
  else streamChunks (maxSizeMb * 1024 * 1024) resp.chunks [] 0

/-! ## `extract_css_base64_images` (master_v2.py lines 399-421)

The outer regex is `url\((data:image/[\w+]+;base64,[^)]+)\)`; the
replacement re-parses the captured data URL with
`data:image/(\w+);base64,(.+)` and, when that inner match succeeds,
unconditionally rewrites the occurrence to `url("../images/<filename>")`.
`hash` is Python's process-randomised string hash, taken as an arbitrary
function `h`; the filesystem is the list of existing paths, and the pairs
of path and bytes written by `save_file` are returned alongside the text. -/

/-- Regex `\w` (ASCII). -/
def isWordChar (c : Char) : Bool :=
  ('A' ≤ c && c ≤ 'Z') || ('a' ≤ c && c ≤ 'z') || ('0' ≤ c && c ≤ '9') || c = '_'

/-- Character class `[\w+]` of the outer pattern's extension segment. -/
def isExtChar (c : Char) : Bool := isWordChar c || c = '+'

/-- Remove `pat` from the front of `l`, or fail. -/
def dropPat (pat l : List Char) : Option (List Char) :=
  if beginsWith pat l then some (l.drop pat.length) else none

/-- Match `data:image/[\w+]+;base64,[^)]+\)` (the part of the outer
pattern after `url(`): returns extension, payload and the text after the
closing parenthesis. -/
def parseDataUrl (l : List Char) : Option (String × String × List Char) :=
  match dropPat "data:image/".data l with
  | none => none
  | some l1 =>
    let ext := l1.takeWhile isExtChar
    if ext.isEmpty then none
    else
      match dropPat ";base64,".data (l1.drop ext.length) with
      | none => none
      | some l2 =>
        let payload := l2.takeWhile (fun c => c ≠ ')')
        if payload.isEmpty then none
        else
          match l2.drop payload.length with
          | ')' :: rest => some (⟨ext⟩, ⟨payload⟩, rest)
          | _ => none

/-- The `repl` callback: the inner `re.match(r'data:image/(\w+);base64,(.+)')`
succeeds exactly when the extension is pure `\w` and the payload does not
start with a newline (`.` stops at the first newline, so the hashed
payload is the prefix before it); on success the reference is rewritten —
whether or not the base64 decodes — and the decoded bytes are written
only when the path does not already exist and `safe_b64decode` succeeds. -/
def cssRepl (h : String → Int) (fs : List String) (ext payload : String) :
    List Char × List (String × List Nat) :=
  let b64 := payload.data.takeWhile (fun c => c ≠ '\n')
  if ext.data.all isWordChar && !b64.isEmpty then
    let filename := "css_img_" ++ toString (h ⟨b64⟩) ++ "." ++ ext
    let path := "componetes/images/" ++ filename
    let writes :=
      if path ∈ fs then []
      else
        match safe_b64decode ⟨b64⟩ with
        | some bytes => [(path, bytes)]
        | none => []
    (("url(\"../images/" ++ filename ++ "\")").data, writes)
  else
    (("url(data:image/" ++ ext ++ ";base64," ++ payload ++ ")").data, [])

/-- The `pattern.sub` scan, fuelled by the input length (each step
consumes at least one character, so the fuel never runs out when started
at the input length). -/
def cssSubGo (h : String → Int) : List String → Nat → List Char →
    List Char × List (String × List Nat)
  | _, 0, l => (l, [])
  | _, _ + 1, [] => ([], [])
  | fs, fuel + 1, c :: cs =>
    if beginsWith "url(".data (c :: cs) then
      match parseDataUrl ((c :: cs).drop 4) with
      | some (ext, payload, rest) =>
        let rep := cssRepl h fs ext payload
        let r := cssSubGo h (fs ++ rep.2.map Prod.fst) fuel rest
        (rep.1 ++ r.1, rep.2 ++ r.2)
      | none =>
        let r := cssSubGo h fs fuel cs
        (c :: r.1, r.2)
    else
      let r := cssSubGo h fs fuel cs
      (c :: r.1, r.2)

/-- `extract_css_base64_images`: rewritten CSS text plus the files written. -/
def extract_css_base64_images (h : String → Int) (fs : List String) (css : String) :
    String × List (String × List Nat) :=
  let r := cssSubGo h fs css.data.length css.data
  (⟨r.1⟩, r.2)

/-! ## The minified serialisation mode of `beautify_html`
(master_v2.py lines 321-329)

The minify branch works on the flat serialisation `soup.decode()` (the
external serialiser); each `re.sub`/`str.replace` is embedded as a
character-level scan.  The scans that continue past a match are fuelled
by the input length; a step always consumes at least one character. -/

/-- The negative lookahead `(?!\s*HEADER|\s*MAIN|\s*FOOTER)` applied just
after `<!--`: the comment is kept when its text starts, after optional
whitespace, with one of the three markers. -/
def minifyKeepLA (l : List Char) : Bool :=
  beginsWith "HEADER".data (l.dropWhile pyIsSpace) ||
  beginsWith "MAIN".data (l.dropWhile pyIsSpace) ||
  beginsWith "FOOTER".data (l.dropWhile pyIsSpace)

/-- Position after the first `-->` (the non-greedy `.*?-->`), if any. -/
def dropToClose : List Char → Option (List Char)
  | [] => none
  | c :: cs => if beginsWith "-->".data (c :: cs) then some (cs.drop 2) else dropToClose cs

/-- Scan of `re.sub(r"<!--(?!\s*HEADER|\s*MAIN|\s*FOOTER).*?-->", "", html,
flags=re.DOTALL)`. -/
def subCommentsGo : Nat → List Char → List Char
  | 0, l => l
  | _ + 1, [] => []
  | fuel + 1, c :: cs =>
    if beginsWith "<!--".data (c :: cs) && !minifyKeepLA (cs.drop 3) then
      match dropToClose (cs.drop 3) with
      | some rest => subCommentsGo fuel rest
      | none => c :: subCommentsGo fuel cs
    else c :: subCommentsGo fuel cs

/-- Comment-removal substitution of the minify branch (line 323). -/
def subComments (l : List Char) : List Char := subCommentsGo l.length l

/-- Scan of `re.sub(r">\s+<", "><", html)` (line 324). -/
def interTagGo : Nat → List Char → List Char
  | 0, l => l
  | _ + 1, [] => []
  | fuel + 1, c :: cs =>
    if c = '>' then
      let ws := cs.takeWhile pyIsSpace
      if !ws.isEmpty then
        match cs.drop ws.length with
        | '<' :: rest => '>' :: '<' :: interTagGo fuel rest
        | _ => c :: interTagGo fuel cs
      else c :: interTagGo fuel cs
    else c :: interTagGo fuel cs

/-- Scan of `re.sub(r"\s{2,}", " ", html)` (line 325). -/
def spacesGo : Nat → List Char → List Char
  | 0, l => l
  | _ + 1, [] => []
  | fuel + 1, c :: cs =>
    if pyIsSpace c then
      let ws := cs.takeWhile pyIsSpace
      if !ws.isEmpty then ' ' :: spacesGo fuel (cs.drop ws.length)
      else c :: spacesGo fuel cs
    else c :: spacesGo fuel cs

/-- Scan of `str.replace(pat, '')` for a non-empty literal `pat`. -/
def removeLitGo (pat : List Char) : Nat → List Char → List Char
  | 0, l => l
  | _ + 1, [] => []
  | fuel + 1, c :: cs =>
    if beginsWith pat (c :: cs) then removeLitGo pat fuel ((c :: cs).drop pat.length)
    else c :: removeLitGo pat fuel cs

/-- The minify branch of `beautify_html` (lines 321-329), applied to the
flat serialisation `soup.decode()` of the tree: comment removal,
inter-tag whitespace collapse, whitespace-run collapse
(`re.sub(r"\n+", "", ...)` deletes exactly the newline characters),
default `type` attribute removal, and a final strip. -/
def beautify_html_minify (decoded : String) : String :=
  let l1 := subComments decoded.data
  let l2 := interTagGo l1.length l1
  let l3 := spacesGo l2.length l2
  let l4 := l3.filter (fun c => c ≠ '\n')
  let l5 := removeLitGo (" type=\"text/javascript\"").data l4.length l4
  let l6 := removeLitGo (" type=\"text/css\"").data l5.length l5
  ⟨pyStrip l6⟩

/-! ## Statement helpers

Definitions used only to state the verified properties. -/

/-- Selector texts of the style rules of a sheet, in order. -/
def styleSelectors (rules : List CssRule) : List String :=
  rules.filterMap (fun r =>
    match r with
    | CssRule.style s _ => some s
    | _ => none)

/-- Deduplication keeping the first occurrence of each element. -/
def firstSeen (l : List String) : List String :=
  l.foldl (fun acc s => if s ∈ acc then acc else acc ++ [s]) []

/-- Declaration lists of the style rules with selector `sel`, in order. -/
def selDecls (rules : List CssRule) (sel : String) : List (List (String × String)) :=
  rules.filterMap (fun r =>
    match r with
    | CssRule.style s ds => if s = sel then some ds else none
    | _ => none)

/-- Value of the last entry with key `k` (the latest declared value of a
property). -/
def lastValue {α : Type} (l : List (String × α)) (k : String) : Option α :=
  assocFind l.reverse k

/-- Node at a relative path below a node: `[]` is the node itself,
otherwise the path descends through the children. -/
def nodeAtN (n : LNode) : List Nat → Option LNode
  | [] => some n
  | j :: rest =>
    match n with
    | .elem _ _ _ ch => nodeAt ch (j :: rest)
    | _ => none

/-- Stripped `style` attribute of the element at path `p`, when present. -/
def styleTrimAt (f : LForest) (p : List Nat) : Option String :=
  match nodeAt f p with
  | some (.elem _ _ a _) => (attrFind a "style").map pyStripS
  | _ => none

/-- Stripped `style` attribute at a relative path below a node. -/
def styleTrimAtN (n : LNode) (p : List Nat) : Option String :=
  match nodeAtN n p with
  | some (.elem _ _ a _) => (attrFind a "style").map pyStripS
  | _ => none

/-- Textual `class` attribute of the element at path `p`
(absent attribute read as `""`, like `el.get("class") or []`). -/
def classAttrAt (f : LForest) (p : List Nat) : Option String :=
  match nodeAt f p with
  | some (.elem _ _ a _) => some ((attrFind a "class").getD "")
  | _ => none

mutual

/-- Tree part of `convInline`, which does not depend on `seen_rules`. -/
def pureConvN : LNode → LNode
  | .elem i t a ch =>
    match attrFind a "style" with
    | some sv =>
      if pyStripS sv = "" then .elem i t a (pureConv ch)
      else .elem i t (attrRemove (appendClass a (inlineClass (pyStripS sv))) "style")
        (pureConv ch)
    | none => .elem i t a (pureConv ch)
  | n => n

/-- Tree part of `convInlineList`. -/
def pureConv : LForest → LForest
  | .nil => .nil
  | .cons n f => .cons (pureConvN n) (pureConv f)

end

/-! # Verified properties -/

/-! ## Association-list lemmas -/

theorem assocFind_cons {α : Type} (k₀ : String) (v : α) (l : List (String × α)) (k : String) :
    assocFind ((k₀, v) :: l) k = if k₀ = k then some v else assocFind l k := by
  simp only [assocFind, List.find?_cons]
  by_cases h : k₀ = k <;> simp [h]

theorem assocFind_append {α : Type} (l₁ l₂ : List (String × α)) (k : String) :
    assocFind (l₁ ++ l₂) k = (assocFind l₁ k).or (assocFind l₂ k) := by
  simp only [assocFind, List.find?_append]
  cases List.find? (fun p => p.1 = k) l₁ <;> simp

theorem assocFind_none_of_not_any {α : Type} (l : List (String × α)) (k : String)
    (h : l.any (fun p => p.1 = k) = false) : assocFind l k = none := by
  induction l with
  | nil => rfl
  | cons p l ih =>
    obtain ⟨k₀, v⟩ := p
    simp only [List.any_cons, Bool.or_eq_false_iff] at h
    rw [assocFind_cons]
    simp only [decide_eq_false_iff_not] at h
    simp [h.1, ih h.2]

theorem assocFind_isSome_of_any {α : Type} (l : List (String × α)) (k : String)
    (h : l.any (fun p => p.1 = k) = true) : ∃ v, assocFind l k = some v := by
  induction l with
  | nil => simp at h
  | cons p l ih =>
    obtain ⟨k₀, v⟩ := p
    rw [assocFind_cons]
    by_cases hk : k₀ = k
    · exact ⟨v, by simp [hk]⟩
    · simp only [List.any_cons] at h
      simp only [hk, if_false]
      apply ih
      simpa [hk] using h

theorem assocFind_mapUpd {α : Type} (l : List (String × α)) (k k' : String) (f : α → α) :
    assocFind (l.map (fun p => if p.1 = k then (k, f p.2) else p)) k' =
      if k' = k then (assocFind l k).map f else assocFind l k' := by
  induction l with
  | nil => simp [assocFind]
  | cons p l ih =>
    obtain ⟨k₀, v⟩ := p
    by_cases hpk : k₀ = k
    · subst hpk
      by_cases hk' : k' = k₀
      · subst hk'
        simp [assocFind_cons]
      · have hk'' : ¬ k₀ = k' := fun h => hk' h.symm
        simp [assocFind_cons, hk', hk'', ih]
    · by_cases hk0 : k₀ = k'
      · subst hk0
        simp [assocFind_cons, hpk, fun h => hpk h]
      · simp [assocFind_cons, hpk, hk0, ih]

theorem assocFind_assocUpd {α : Type} (l : List (String × α)) (k k' : String)
    (f : α → α) (x : α) :
    assocFind (assocUpd l k f x) k' =
      if k' = k then
        (match assocFind l k with
         | some old => some (f old)
         | none => some x)
      else assocFind l k' := by
  unfold assocUpd
  cases hany : l.any (fun p => p.1 = k) with
  | true =>
    rw [if_pos rfl, assocFind_mapUpd]
    obtain ⟨v, hv⟩ := assocFind_isSome_of_any l k hany
    rw [hv]
    by_cases hk' : k' = k <;> simp [hk']
  | false =>
    rw [if_neg (by simp), assocFind_append,
      assocFind_none_of_not_any l k hany, assocFind_cons]
    by_cases hk' : k' = k
    · subst hk'
      rw [assocFind_none_of_not_any l k' hany]
      simp
    · have hk'' : ¬ k = k' := fun h => hk' (Eq.symm h)
      simp [hk', hk'', assocFind]

theorem assocFind_attrRemove_ne (a : List (String × String)) (n m : String) (h : n ≠ m) :
    assocFind (attrRemove a m) n = assocFind a n := by
  induction a with
  | nil => rfl
  | cons p l ih =>
    obtain ⟨k₀, v⟩ := p
    simp only [attrRemove, List.filter_cons]
    by_cases hm : k₀ = m
    · subst hm
      rw [if_neg (by simp)]
      rw [assocFind_cons, if_neg (fun hh => h (Eq.symm hh))]
      simpa [attrRemove] using ih
    · rw [if_pos (by simp [hm])]
      rw [assocFind_cons, assocFind_cons]
      by_cases hk : k₀ = n
      · simp [hk]
      · rw [if_neg hk, if_neg hk]
        simpa [attrRemove] using ih

theorem assocFind_attrRemove_self (a : List (String × String)) (m : String) :
    assocFind (attrRemove a m) m = none := by
  induction a with
  | nil => rfl
  | cons p l ih =>
    obtain ⟨k₀, v⟩ := p
    simp only [attrRemove, List.filter_cons]
    by_cases hm : k₀ = m
    · subst hm
      rw [if_neg (by simp)]
      simpa [attrRemove] using ih
    · rw [if_pos (by simp [hm])]
      rw [assocFind_cons, if_neg hm]
      simpa [attrRemove] using ih

/-! ## C3: rejection behaviour of `download_image_safe` -/

theorem streamChunks_overflow (maxB : Nat) (chunks : List (List Nat)) (acc : List Nat)
    (read : Nat) (hacc : acc.length ≤ maxB)
    (h : (acc ++ chunks.flatten).length > maxB) :
    (streamChunks maxB chunks acc read).1 = none := by
  induction chunks generalizing acc read with
  | nil => simp at h; omega
  | cons ch rest ih =>
    rw [streamChunks]
    split
    · rfl
    · next hle =>
      apply ih
      · simpa using Nat.le_of_not_lt (by simpa using hle)
      · simp at h ⊢
        omega

/-- C3: for every response and byte budget, `download_image_safe` returns
no content (it is a total function, so it never raises) when the request
or status check fails, when the declared `Content-Length` exceeds the
budget, or when the declared `Content-Type` does not begin with `image/`
— in these cases without reading any body chunk — and also whenever the
actual streamed byte count exceeds the budget (which covers a lying or
absent `Content-Length` header). -/
theorem C3_download_image_safe_rejections (resp : HttpResponse) (mb : Nat) :
    (resp.requestFails = true → download_image_safe resp mb = (none, 0)) ∧
    (resp.contentLength.getD 0 > mb * 1024 * 1024 →
      download_image_safe resp mb = (none, 0)) ∧
    (beginsWith "image/".data resp.contentType.data = false →
      download_image_safe resp mb = (none, 0)) ∧
    (resp.chunks.flatten.length > mb * 1024 * 1024 →
      (download_image_safe resp mb).1 = none) := by
  refine ⟨fun h => by simp [download_image_safe, h], fun h => ?_, fun h => ?_, fun h => ?_⟩
  · by_cases hrf : resp.requestFails <;> simp [download_image_safe, hrf, h]
  · by_cases hrf : resp.requestFails
    · simp [download_image_safe, hrf]
    · by_cases hlen : resp.contentLength.getD 0 > mb * 1024 * 1024 <;>
        simp [download_image_safe, hrf, hlen, h]
  · by_cases hrf : resp.requestFails
    · simp [download_image_safe, hrf]
    · by_cases hlen : resp.contentLength.getD 0 > mb * 1024 * 1024
      · simp [download_image_safe, hrf, hlen]
      · by_cases hct : beginsWith "image/".data resp.contentType.data
        · unfold download_image_safe
          rw [if_neg hrf, if_neg hlen, if_neg (by simp [hct])]
          exact streamChunks_overflow _ _ _ _ (by simp) (by simpa using h)
        · simp [download_image_safe, hrf, hlen, hct]

/-- Witness for C3: a declared `Content-Length` of 999999999 against a
5 MB budget is rejected without reading the body, and a `text/html`
content type is rejected regardless of size. -/
theorem C3_download_image_safe_rejections_witness :
    download_image_safe ⟨false, some 999999999, "image/png", [[1, 2, 3]]⟩ 5 = (none, 0) ∧
    download_image_safe ⟨false, some 100, "text/html", [[1, 2, 3]]⟩ 5 = (none, 0) :=
  ⟨(C3_download_image_safe_rejections _ 5).2.1 (by decide),
   (C3_download_image_safe_rejections _ 5).2.2.1 (by decide)⟩

/-! ## C6: `optimize_css` returns the original text on failure -/

/-- C6: `optimize_css` is a total function (so a parse failure never
aborts the pipeline), and whenever the external CSS parser fails — or the
re-serialisation of the optimised sheet fails — the original CSS text is
returned completely unmodified. -/
theorem C6_optimize_css_failure_keeps_original
    (parse : String → Option (List CssRule)) (serialize : List CssRule → Option String)
    (css : String) :
    (parse css = none → optimize_css parse serialize css = css) ∧
    (∀ rules, parse css = some rules → serialize (optimize_rules rules) = none →
      optimize_css parse serialize css = css) := by
  constructor
  · intro h
    simp [optimize_css, h]
  · intro rules h1 h2
    simp [optimize_css, h1, h2]

/-- Witness for C6: a parser that rejects its input leaves the text alone. -/
theorem C6_optimize_css_failure_keeps_original_witness :
    optimize_css (fun _ => none) (fun _ => some "") "body color:" = "body color:" :=
  (C6_optimize_css_failure_keeps_original (fun _ => none) (fun _ => some "") "body color:").1 rfl

/-! ## C10: `optimize_css` keeps only plain style rules -/

theorem foldl_optStep_filter (rules : List CssRule)
    (acc : List (String × List (String × String))) :
    (rules.filter CssRule.isStyle).foldl optStep acc = rules.foldl optStep acc := by
  induction rules generalizing acc with
  | nil => rfl
  | cons r rest ih =>
    cases r with
    | style sel ds => simp [List.filter_cons, CssRule.isStyle, List.foldl_cons, ih]
    | atRule n b => simpa [List.filter_cons, CssRule.isStyle, optStep] using ih acc
    | comment s => simpa [List.filter_cons, CssRule.isStyle, optStep] using ih acc

/-- C10: when parsing succeeds, `optimize_css` keeps only plain style
rules — the optimised sheet is a function of the input's style rules
alone, every rule of the output is a style rule, and a sheet mixing
`@media`, `@import`, `@font-face` and comment rules with one style rule
optimises to just that style rule. -/
theorem C10_optimize_css_drops_non_style_rules (rules : List CssRule) :
    optimize_rules rules = optimize_rules (rules.filter CssRule.isStyle) ∧
    (∀ r ∈ optimize_rules rules, r.isStyle = true) ∧
    optimize_rules
      [CssRule.atRule "@media" "screen and (max-width: 600px)",
       CssRule.atRule "@import" "url(x.css)",
       CssRule.atRule "@font-face" "font-family: F",
       CssRule.comment "a comment",
       CssRule.style ".x" [("color", "red")]] = [CssRule.style ".x" [("color", "red")]] := by
  refine ⟨?_, ?_, rfl⟩
  · unfold optimize_rules
    rw [foldl_optStep_filter]
  · intro r hr
    unfold optimize_rules at hr
    simp only [List.mem_map] at hr
    obtain ⟨e, _, rfl⟩ := hr
    rfl

/-- Witness for C10: the style rule surviving the concrete mixed sheet is
a style rule. -/
theorem C10_optimize_css_drops_non_style_rules_witness :
    (CssRule.style ".x" [("color", "red")]).isStyle = true :=
  (C10_optimize_css_drops_non_style_rules
      [CssRule.style ".x" [("color", "red")]]).2.1 _ (by decide)

/-! ## C5: selector deduplication and last-write-wins merging -/

theorem lastValue_append {α : Type} (l₁ l₂ : List (String × α)) (k : String) :
    lastValue (l₁ ++ l₂) k = (lastValue l₂ k).or (lastValue l₁ k) := by
  simp [lastValue, List.reverse_append, assocFind_append]

theorem assocFind_attrSet (d : List (String × String)) (m v n : String) :
    assocFind (attrSet d m v) n = if n = m then some v else assocFind d n := by
  rw [attrSet, assocFind_assocUpd]
  by_cases h : n = m
  · simp only [h, if_pos rfl]
    cases assocFind d m <;> rfl
  · simp [h]

theorem assocFind_mergeDecls (d later : List (String × String)) (n : String) :
    assocFind (mergeDecls d later) n = (lastValue later n).or (assocFind d n) := by
  induction later generalizing d with
  | nil => simp [mergeDecls, lastValue, assocFind]
  | cons p rest ih =>
    obtain ⟨m, v⟩ := p
    have step : mergeDecls d ((m, v) :: rest) = mergeDecls (attrSet d m v) rest := rfl
    rw [step, ih, assocFind_attrSet]
    have hcons : lastValue ((m, v) :: rest) n =
        (lastValue rest n).or (if m = n then some v else none) := by
      have : (m, v) :: rest = [(m, v)] ++ rest := rfl
      rw [this, lastValue_append]
      congr 1
      simp [lastValue, assocFind_cons, assocFind]
    rw [hcons]
    cases lastValue rest n with
    | none =>
      by_cases h : n = m
      · simp [h]
      · have h' : ¬ m = n := fun hh => h (Eq.symm hh)
        simp [h, h']
    | some w => simp

theorem fold_mergeDecls_lastValue (ls : List (List (String × String)))
    (d : List (String × String)) (n : String) :
    assocFind (ls.foldl mergeDecls d) n = (lastValue ls.flatten n).or (assocFind d n) := by
  induction ls generalizing d with
  | nil => simp [lastValue, assocFind]
  | cons ds rest ih =>
    rw [List.foldl_cons, ih, assocFind_mergeDecls, List.flatten_cons, lastValue_append]
    cases lastValue rest.flatten n <;> simp

theorem assocFind_none_of_not_mem_keys {α : Type} (l : List (String × α)) (n : String)
    (h : n ∉ l.map Prod.fst) : assocFind l n = none := by
  induction l with
  | nil => rfl
  | cons p l ih =>
    obtain ⟨m, v⟩ := p
    simp only [List.map_cons, List.mem_cons, not_or] at h
    rw [assocFind_cons, if_neg (fun hh => h.1 (Eq.symm hh))]
    exact ih h.2

theorem assocFind_eq_lastValue_of_nodup (d : List (String × String))
    (hn : (d.map Prod.fst).Nodup) (n : String) : assocFind d n = lastValue d n := by
  induction d with
  | nil => rfl
  | cons p d ih =>
    obtain ⟨m, v⟩ := p
    simp only [List.map_cons, List.nodup_cons] at hn
    have hcons : lastValue ((m, v) :: d) n =
        (lastValue d n).or (if m = n then some v else none) := by
      have : (m, v) :: d = [(m, v)] ++ d := rfl
      rw [this, lastValue_append]
      congr 1
      simp [lastValue, assocFind_cons, assocFind]
    rw [assocFind_cons, hcons]
    by_cases h : m = n
    · subst h
      rw [if_pos rfl]
      have : lastValue d m = none := by
        unfold lastValue
        exact assocFind_none_of_not_mem_keys d.reverse m
          (by simpa [List.map_reverse, List.mem_reverse] using hn.1)
      simp [this]
    · rw [if_neg h, ih hn.2]
      cases lastValue d n <;> simp [h]

theorem foldl_optStep_entry (rules : List CssRule)
    (acc : List (String × List (String × String))) (sel : String) :
    assocFind (rules.foldl optStep acc) sel =
      (selDecls rules sel).foldl
        (fun o ds =>
          match o with
          | none => some ds
          | some d => some (mergeDecls d ds)) (assocFind acc sel) := by
  induction rules generalizing acc with
  | nil => rfl
  | cons r rest ih =>
    cases r with
    | style s ds =>
      rw [List.foldl_cons]
      have hsel : selDecls (CssRule.style s ds :: rest) sel =
          (if s = sel then [ds] else []) ++ selDecls rest sel := by
        simp only [selDecls, List.filterMap_cons]
        by_cases h : s = sel <;> simp [h]
      rw [hsel]
      have hstep : optStep acc (CssRule.style s ds) = insStyleRule acc s ds := rfl
      rw [hstep, ih]
      by_cases h : s = sel
      · subst h
        rw [insStyleRule, assocFind_assocUpd, if_pos rfl]
        cases assocFind acc s <;> simp
      · rw [insStyleRule, assocFind_assocUpd, if_neg (fun hh => h (Eq.symm hh))]
        simp [h]
    | atRule nm b => simpa [selDecls, List.filterMap_cons, optStep] using ih acc
    | comment s => simpa [selDecls, List.filterMap_cons, optStep] using ih acc

theorem optionFold_some (ls : List (List (String × String)))
    (d : List (String × String)) :
    ls.foldl
      (fun o ds =>
        match o with
        | none => some ds
        | some d => some (mergeDecls d ds)) (some d) = some (ls.foldl mergeDecls d) := by
  induction ls generalizing d with
  | nil => rfl
  | cons ds rest ih => simpa using ih (mergeDecls d ds)

theorem keys_assocUpd {α : Type} (l : List (String × α)) (k : String) (f : α → α) (x : α) :
    (assocUpd l k f x).map Prod.fst =
      if l.any (fun p => p.1 = k) then l.map Prod.fst else l.map Prod.fst ++ [k] := by
  unfold assocUpd
  cases hany : l.any (fun p => p.1 = k) with
  | true =>
    rw [if_pos rfl, if_pos rfl, List.map_map]
    apply List.map_congr_left
    intro p _
    by_cases h : p.1 = k <;> simp [h]
  | false =>
    rw [if_neg (by simp), if_neg (by simp)]
    simp

theorem mem_keys_iff_any {α : Type} (l : List (String × α)) (k : String) :
    l.any (fun p => p.1 = k) = true ↔ k ∈ l.map Prod.fst := by
  simp [List.any_eq_true, List.mem_map]

theorem keys_foldl_optStep (rules : List CssRule)
    (acc : List (String × List (String × String))) :
    (rules.foldl optStep acc).map Prod.fst =
      (styleSelectors rules).foldl
        (fun ks s => if s ∈ ks then ks else ks ++ [s]) (acc.map Prod.fst) := by
  induction rules generalizing acc with
  | nil => rfl
  | cons r rest ih =>
    cases r with
    | style s ds =>
      have hsel : styleSelectors (CssRule.style s ds :: rest) = s :: styleSelectors rest := by
        simp [styleSelectors, List.filterMap_cons]
      rw [List.foldl_cons, hsel, List.foldl_cons]
      have hstep : optStep acc (CssRule.style s ds) = insStyleRule acc s ds := rfl
      rw [hstep, ih, insStyleRule, keys_assocUpd]
      by_cases h : s ∈ acc.map Prod.fst
      · rw [if_pos ((mem_keys_iff_any acc s).mpr h), if_pos h]
      · rw [if_neg (fun hh => h ((mem_keys_iff_any acc s).mp hh)), if_neg h]
    | atRule nm b => simpa [styleSelectors, List.filterMap_cons, optStep] using ih acc
    | comment s => simpa [styleSelectors, List.filterMap_cons, optStep] using ih acc

theorem firstSeen_aux_nodup (l : List String) (acc : List String) (h : acc.Nodup) :
    (l.foldl (fun ks s => if s ∈ ks then ks else ks ++ [s]) acc).Nodup := by
  induction l generalizing acc with
  | nil => exact h
  | cons s rest ih =>
    rw [List.foldl_cons]
    by_cases hs : s ∈ acc
    · rw [if_pos hs]
      exact ih acc h
    · rw [if_neg hs]
      refine ih _ ?_
      rw [List.nodup_append]
      refine ⟨h, List.nodup_singleton s, ?_⟩
      intro a ha hb
      rw [List.mem_singleton] at hb
      subst hb
      exact hs ha

theorem styleSelectors_map_style (l : List (String × List (String × String))) :
    styleSelectors (l.map (fun e => CssRule.style e.1 e.2)) = l.map Prod.fst := by
  induction l with
  | nil => rfl
  | cons e l ih =>
    simp only [List.map_cons, styleSelectors, List.filterMap_cons] at ih ⊢
    rw [ih]

theorem styleSelectors_optimize (rules : List CssRule) :
    styleSelectors (optimize_rules rules) = (rules.foldl optStep []).map Prod.fst := by
  unfold optimize_rules
  exact styleSelectors_map_style _

theorem mem_of_selDecls (rules : List CssRule) (sel : String)
    (ds : List (String × String)) (h : ds ∈ selDecls rules sel) :
    CssRule.style sel ds ∈ rules := by
  simp only [selDecls, List.mem_filterMap] at h
  obtain ⟨r, hr, hmatch⟩ := h
  cases r with
  | style s ds' =>
    by_cases hs : s = sel
    · subst hs
      have hmatch' : (if s = s then some ds' else none) = some ds := hmatch
      rw [if_pos rfl] at hmatch'
      injection hmatch' with h2
      subst h2
      exact hr
    · have hmatch' : (if s = sel then some ds' else none) = some ds := hmatch
      simp [hs] at hmatch'
  | atRule nm b => simp at hmatch
  | comment s => simp at hmatch

theorem assocFind_of_mem_nodup {α : Type} (l : List (String × α))
    (hl : (l.map Prod.fst).Nodup) (k : String) (v : α) (h : (k, v) ∈ l) :
    assocFind l k = some v := by
  induction l with
  | nil => simp at h
  | cons p l ih =>
    obtain ⟨m, w⟩ := p
    simp only [List.map_cons, List.nodup_cons] at hl
    rcases List.mem_cons.mp h with heq | hmem
    · cases heq
      rw [assocFind_cons, if_pos rfl]
    · have hk : k ∈ l.map Prod.fst := List.mem_map.mpr ⟨(k, v), hmem, rfl⟩
      have hne : ¬ m = k := fun hh => hl.1 (hh ▸ hk)
      rw [assocFind_cons, if_neg hne]
      exact ih hl.2 hmem

/-- C5: when parsing succeeds, `optimize_css` emits exactly one rule per
unique selector in first-seen order (so each selector appears at most
once in the output), and the declarations of the rule emitted for a
selector are the last-write-wins merge of all declarations given for that
selector: looking up any property name yields the value of its latest
declaration across the rules with that selector (so a property declared
in only one of them is kept).  Each parsed rule's effective declaration
list has distinct property names, which is the hypothesis `hnd`. -/
theorem C5_optimize_css_selector_merge (rules : List CssRule)
    (hnd : ∀ sel ds, CssRule.style sel ds ∈ rules → (ds.map Prod.fst).Nodup) :
    styleSelectors (optimize_rules rules) = firstSeen (styleSelectors rules) ∧
    (styleSelectors (optimize_rules rules)).Nodup ∧
    (∀ sel ds, CssRule.style sel ds ∈ optimize_rules rules →
      ∀ n, assocFind ds n = lastValue (selDecls rules sel).flatten n) := by
  have hkeys : (rules.foldl optStep []).map Prod.fst = firstSeen (styleSelectors rules) := by
    rw [keys_foldl_optStep]
    rfl
  refine ⟨by rw [styleSelectors_optimize, hkeys], ?_, ?_⟩
  · rw [styleSelectors_optimize, hkeys]
    exact firstSeen_aux_nodup _ [] List.nodup_nil
  · intro sel ds hmem n
    unfold optimize_rules at hmem
    simp only [List.mem_map] at hmem
    obtain ⟨e, he, heq⟩ := hmem
    obtain ⟨hsel, hds⟩ : e.1 = sel ∧ e.2 = ds := by
      cases heq
      exact ⟨rfl, rfl⟩
    have hfind : assocFind (rules.foldl optStep []) sel = some ds := by
      apply assocFind_of_mem_nodup _ (hkeys ▸ firstSeen_aux_nodup _ [] List.nodup_nil)
      have : e = (sel, ds) := by
        obtain ⟨e1, e2⟩ := e
        simp only at hsel hds
        rw [hsel, hds]
      exact this ▸ he
    rw [foldl_optStep_entry] at hfind
    cases hsd : selDecls rules sel with
    | nil =>
      rw [hsd] at hfind
      simp [assocFind] at hfind
    | cons ds0 restD =>
      rw [hsd] at hfind
      rw [List.foldl_cons] at hfind
      have hstep : (match (assocFind ([] : List (String × List (String × String))) sel) with
          | none => some ds0
          | some d => some (mergeDecls d ds0)) = some ds0 := rfl
      rw [hstep, optionFold_some] at hfind
      have hds' : ds = restD.foldl mergeDecls ds0 := by
        cases hfind
        rfl
      have hnodup0 : (ds0.map Prod.fst).Nodup :=
        hnd sel ds0 (mem_of_selDecls rules sel ds0 (hsd ▸ List.mem_cons_self ds0 restD))
      rw [hds', fold_mergeDecls_lastValue,
        assocFind_eq_lastValue_of_nodup ds0 hnodup0 n, List.flatten_cons,
        lastValue_append]

/-- Witness for C5: two `.x` rules with an overlapping property merge to
one rule whose `color` is the later value and whose `margin` survives. -/
theorem C5_optimize_css_selector_merge_witness :
    styleSelectors (optimize_rules
        [CssRule.style ".x" [("color", "red"), ("margin", "0")],
         CssRule.style ".x" [("color", "blue")]]) =
      firstSeen (styleSelectors
        [CssRule.style ".x" [("color", "red"), ("margin", "0")],
         CssRule.style ".x" [("color", "blue")]]) :=
  (C5_optimize_css_selector_merge _
    (by
      intro sel ds h
      simp only [List.mem_cons, List.not_mem_nil, or_false] at h
      rcases h with h | h <;> (injection h with h1 h2; subst h2; decide))).1

/-! ## C9: `safe_b64decode` ignores injected noise -/

theorem ws_not_kept (c : Char) (h : pyIsSpace c = true) : isB64Kept c = false := by
  unfold pyIsSpace at h
  simp only [Bool.or_eq_true, decide_eq_true_eq] at h
  rcases h with ((((h | h) | h) | h) | h) | h <;> subst h <;> decide

theorem filter_kept_dropWhile (l : List Char) :
    (l.dropWhile pyIsSpace).filter isB64Kept = l.filter isB64Kept := by
  induction l with
  | nil => rfl
  | cons c cs ih =>
    by_cases h : pyIsSpace c
    · rw [List.dropWhile_cons_of_pos h, List.filter_cons, if_neg (by simp [ws_not_kept c h])]
      exact ih
    · rw [List.dropWhile_cons_of_neg h]

theorem filter_kept_pyStrip (l : List Char) :
    (pyStrip l).filter isB64Kept = l.filter isB64Kept := by
  show ((((l.dropWhile pyIsSpace).reverse.dropWhile pyIsSpace).reverse).filter isB64Kept) = _
  rw [List.filter_reverse, filter_kept_dropWhile, List.filter_reverse,
    List.reverse_reverse, filter_kept_dropWhile]

theorem padB64_length_mod (l : List Char) : (padB64 l).length % 4 = 0 := by
  unfold padB64
  split
  · next h => exact h
  · next h =>
    simp only [List.length_append, List.length_replicate]
    omega

theorem padB64_idem (l : List Char) : padB64 (padB64 l) = padB64 l := by
  have h := padB64_length_mod l
  rw [padB64, if_pos h]

/-- C9: the result of `safe_b64decode` on a payload interleaved with
characters outside the `[A-Za-z0-9+/=]` class (whitespace included)
equals its result on the cleaned canonical padded form of the payload:
`hn` says `noisy` is the payload with such characters injected, `hp` that
the payload itself is made of kept characters (base64 alphabet and
padding), and `padB64 payload` is the canonical padded form. -/
theorem C9_safe_b64decode_noise_invariant (payload noisy : String)
    (hp : ∀ c ∈ payload.data, isB64Kept c = true)
    (hn : noisy.data.filter isB64Kept = payload.data) :
    safe_b64decode noisy = safe_b64decode ⟨padB64 payload.data⟩ := by
  unfold safe_b64decode
  rw [filter_kept_pyStrip, hn]
  have hall : ∀ c ∈ padB64 payload.data, isB64Kept c = true := by
    intro c hc
    unfold padB64 at hc
    split at hc
    · exact hp c hc
    · rcases List.mem_append.mp hc with h | h
      · exact hp c h
      · rw [List.eq_of_mem_replicate h]
        decide
  have hr : (pyStrip ((⟨padB64 payload.data⟩ : String)).data).filter isB64Kept =
      padB64 payload.data := by
    show (pyStrip (padB64 payload.data)).filter isB64Kept = _
    rw [filter_kept_pyStrip]
    exact List.filter_eq_self.mpr hall
  rw [hr, padB64_idem]

/-- Witness for C9: a payload with injected whitespace and punctuation
decodes exactly like its canonical padded form. -/
theorem C9_safe_b64decode_noise_invariant_witness :
    safe_b64decode "  aGV!sbG8*\n" = safe_b64decode ⟨padB64 ("aGVsbG8").data⟩ :=
  C9_safe_b64decode_noise_invariant "aGVsbG8" "  aGV!sbG8*\n" (by decide) (by decide)

/-! ## C1: `extract_css_base64_images` on undecodable payloads

The regex replacement returns `url("../images/<filename>")` outside the
`if img_bytes:` guard, so an occurrence whose payload fails
`safe_b64decode` is still rewritten — to a file that was never written —
rather than left unchanged.  (`extract_images`, by contrast, rewrites
`img["src"]` only inside its `if img_bytes:` guard.) -/

/-- C1: on the CSS text `url(data:image/png;base64,A)` — whose payload
`A` fails `safe_b64decode` — `extract_css_base64_images` (run here with
an empty images directory and a `hash` returning 0) writes no file yet
rewrites the occurrence to `url("../images/css_img_0.png")` instead of
leaving it unchanged. -/
theorem C1_css_decode_failure_still_rewrites :
    safe_b64decode "A" = none ∧
    (extract_css_base64_images (fun _ => 0) [] "url(data:image/png;base64,A)").1 =
      "url(\"../images/css_img_0.png\")" ∧
    (extract_css_base64_images (fun _ => 0) [] "url(data:image/png;base64,A)").2 = [] :=
  ⟨rfl, rfl, rfl⟩

/-! ## C8: the semantic classifier -/

theorem get?_semantic_conversion : ∀ (f : LForest) (j : Nat),
    (semantic_conversion f).get? j = (f.get? j).map semantic_conversionN
  | .nil, _ => rfl
  | .cons _ _, 0 => rfl
  | .cons _ f, j + 1 => get?_semantic_conversion f j

theorem nodeAt_semantic_conversion (p : List Nat) (f : LForest) :
    nodeAt (semantic_conversion f) p = (nodeAt f p).map semantic_conversionN := by
  induction p generalizing f with
  | nil => rfl
  | cons j rest ih =>
    cases rest with
    | nil => exact get?_semantic_conversion f j
    | cons k rest' =>
      show nodeAt (semantic_conversion f) (j :: k :: rest') = _
      simp only [nodeAt, get?_semantic_conversion f j]
      cases h : f.get? j with
      | none => rfl
      | some n =>
        cases n with
        | elem i t a ch => exact ih ch
        | text s => rfl
        | comment s => rfl

/-- C8: `semantic_conversion` renames each `div` to the target of the
first matching entry of the ordered keyword table (the `elif` chain
agrees with the table read top-to-bottom, so a `div` matching several
categories is renamed exactly once, by table order), matching keywords as
substrings of the case-folded space-joined class list or the case-folded
id; every non-`div` element keeps its tag, and all attributes and
children are preserved.  The scenario
`<div class="site-header"><p>Hi</p></div>` becomes
`<header><p>Hi</p></header>` after normalisation and classification. -/
theorem C8_semantic_conversion_first_match (f : LForest) (p : List Nat) :
    (∀ classes divId, divNewName classes divId = (tableFirstMatch classes divId).getD "div") ∧
    (∀ i t a ch, nodeAt f p = some (.elem i t a ch) →
      nodeAt (semantic_conversion f) p =
        some (.elem i (if t = "div" then divNewName (classesText a) (idText a) else t) a
          (semantic_conversion ch))) ∧
    semantic_conversion (clean_html (LForest.ofList
        [LNode.elem 0 "div" [("class", "site-header")]
          (LForest.ofList [LNode.elem 1 "p" [] (LForest.ofList [LNode.text "Hi"])])])) =
      LForest.ofList
        [LNode.elem 0 "header" [("class", "site-header")]
          (LForest.ofList [LNode.elem 1 "p" [] (LForest.ofList [LNode.text "Hi"])])] := by
  refine ⟨?_, ?_, rfl⟩
  · intro classes divId
    unfold divNewName tableFirstMatch semanticTable
    simp only [List.findSome?_cons, List.findSome?_nil]
    split_ifs <;> rfl
  · intro i t a ch h
    rw [nodeAt_semantic_conversion, h]
    rfl

/-- Witness for C8: a `div` with class `menu-bar` is renamed to `nav`. -/
theorem C8_semantic_conversion_first_match_witness :
    nodeAt (semantic_conversion (LForest.ofList
        [LNode.elem 5 "div" [("class", "menu-bar")] (LForest.ofList [])])) [0] =
      some (LNode.elem 5
        (if "div" = "div" then
          divNewName (classesText [("class", "menu-bar")]) (idText [("class", "menu-bar")])
         else "div")
        [("class", "menu-bar")] (semantic_conversion (LForest.ofList []))) :=
  (C8_semantic_conversion_first_match
    (LForest.ofList [LNode.elem 5 "div" [("class", "menu-bar")] (LForest.ofList [])])
    [0]).2.1 5 "div" [("class", "menu-bar")] (LForest.ofList []) rfl

/-! ## C2: comment preservation in minified mode

The minify regex `<!--(?!\s*HEADER|\s*MAIN|\s*FOOTER).*?-->` keeps a
comment only when its text *starts* (after optional whitespace) with one
of *three* markers, while `clean_html` keeps a comment when its text
*contains* one of *four* markers (`SECTION` included), so the two
marker behaviours differ. -/

theorem beginsWith_append_blocked (m : List Char) (d : Char) (v : List Char)
    (hm : ∀ c ∈ m, c ≠ d) :
    ∀ u : List Char, beginsWith m (u ++ d :: v) = beginsWith m u := by
  induction m with
  | nil => intro u; rfl
  | cons c m ih =>
    intro u
    cases u with
    | nil =>
      have hc : ¬ (c = d) := hm c (List.mem_cons_self c m)
      simp [beginsWith, hc]
    | cons x u' =>
      simp only [List.cons_append, beginsWith]
      congr 1
      exact ih (fun c hc => hm c (List.mem_cons_of_mem _ hc)) u'

theorem minifyKeepLA_close (t : List Char) :
    minifyKeepLA (t ++ ['-', '-', '>']) = minifyKeepLA t := by
  unfold minifyKeepLA
  rw [List.dropWhile_append]
  split
  · next he =>
    have ht : t.dropWhile pyIsSpace = [] := by simpa [List.isEmpty_iff] using he
    rw [ht]
    decide
  · rw [beginsWith_append_blocked "HEADER".data '-' ['-', '>'] (by decide) (t.dropWhile pyIsSpace),
      beginsWith_append_blocked "MAIN".data '-' ['-', '>'] (by decide) (t.dropWhile pyIsSpace),
      beginsWith_append_blocked "FOOTER".data '-' ['-', '>'] (by decide) (t.dropWhile pyIsSpace)]

theorem dropToClose_append (t : List Char) (h : ∀ c ∈ t, c ≠ '-') :
    dropToClose (t ++ ['-', '-', '>']) = some [] := by
  induction t with
  | nil => rfl
  | cons c t ih =>
    have hc : ¬ ('-' = c) := fun hh => h c (List.mem_cons_self c t) hh.symm
    show dropToClose (c :: (t ++ ['-', '-', '>'])) = some []
    rw [dropToClose, if_neg (by simp [beginsWith, hc])]
    exact ih (fun c hc => h c (List.mem_cons_of_mem _ hc))

theorem subCommentsGo_nil : ∀ fuel, subCommentsGo fuel [] = []
  | 0 => rfl
  | _ + 1 => rfl

theorem subCommentsGo_id (l : List Char) (h : ∀ c ∈ l, c ≠ '<') :
    ∀ fuel, l.length ≤ fuel → subCommentsGo fuel l = l := by
  induction l with
  | nil => intro fuel _; exact subCommentsGo_nil fuel
  | cons c cs ih =>
    intro fuel hlen
    cases fuel with
    | zero => simp at hlen
    | succ f =>
      have hc : ¬ ('<' = c) := fun hh => h c (List.mem_cons_self c cs) hh.symm
      show subCommentsGo (f + 1) (c :: cs) = c :: cs
      rw [subCommentsGo, if_neg (by simp [beginsWith, hc])]
      rw [ih (fun c hc => h c (List.mem_cons_of_mem _ hc)) f (by simpa using hlen)]

/-- C2 counterexample: the comment `<!--SECTION-->` is preserved as
structural by `clean_html` (its text contains the marker `SECTION`), yet
the minified serialisation removes it entirely — so minification does
not remove comments "if and only if" they fail the `clean_html` marker
test, and not every comment `clean_html` preserves survives
minification. -/
theorem C2_clean_keeps_minify_removes :
    keepsComment "SECTION" = true ∧ beautify_html_minify "<!--SECTION-->" = "" :=
  ⟨rfl, rfl⟩

/-- C2 (amended): in minified mode the comment-removal substitution of
`beautify_html` removes a comment if and only if its text does not begin,
after optional leading whitespace, with one of the three markers
`HEADER`, `MAIN`, `FOOTER` — a case-sensitive *prefix* match over a
*three*-marker set, unlike the case-sensitive *substring* match over the
four-marker set (including `SECTION`) used by `clean_html`.  Stated for
a comment `<!--t-->` whose text contains no `<` and no `-` (so the
comment is well delimited): the substitution leaves the comment exactly
in place when the lookahead matches and erases it otherwise. -/
theorem C2_minify_comment_prefix_semantics (t : List Char)
    (h : ∀ c ∈ t, c ≠ '<' ∧ c ≠ '-') :
    subComments ('<' :: '!' :: '-' :: '-' :: (t ++ ['-', '-', '>'])) =
      (if minifyKeepLA t then '<' :: '!' :: '-' :: '-' :: (t ++ ['-', '-', '>'])
       else []) := by
  unfold subComments
  have hlen : ('<' :: '!' :: '-' :: '-' :: (t ++ ['-', '-', '>'])).length = t.length + 7 := by
    simp [List.length_append]
  rw [hlen]
  have hb : beginsWith ("<!--".data) ('<' :: '!' :: '-' :: '-' :: (t ++ ['-', '-', '>'])) =
      true := by
    rw [show ("<!--".data) = ['<', '!', '-', '-'] from rfl]
    simp [beginsWith]
  have hdrop : ('!' :: '-' :: '-' :: (t ++ ['-', '-', '>'])).drop 3 = t ++ ['-', '-', '>'] := rfl
  show subCommentsGo (t.length + 6 + 1) ('<' :: '!' :: '-' :: '-' :: (t ++ ['-', '-', '>'])) = _
  rw [subCommentsGo, hdrop, hb, minifyKeepLA_close]
  cases hk : minifyKeepLA t with
  | true =>
    rw [if_neg (by simp)]
    rw [subCommentsGo_id ('!' :: '-' :: '-' :: (t ++ ['-', '-', '>'])) ?hlt (t.length + 6)
      (by simp [List.length_append])]
    · rfl
    case hlt =>
      intro c hc
      simp only [List.mem_cons, List.mem_append, List.not_mem_nil, or_false] at hc
      rcases hc with rfl | rfl | rfl | hc | rfl | rfl | rfl
      · decide
      · decide
      · decide
      · exact (h c hc).1
      · decide
      · decide
      · decide
  | false =>
    rw [if_pos (by simp)]
    rw [dropToClose_append t (fun c hc => (h c hc).2)]
    simp [subCommentsGo_nil]

/-- Witness for C2 (amended): a comment starting with `HEADER` is kept
verbatim by the minify comment substitution. -/
theorem C2_minify_comment_prefix_semantics_witness :
    subComments ('<' :: '!' :: '-' :: '-' :: (("HEADER ok").data ++ ['-', '-', '>'])) =
      (if minifyKeepLA ("HEADER ok").data then
        '<' :: '!' :: '-' :: '-' :: (("HEADER ok").data ++ ['-', '-', '>'])
       else []) :=
  C2_minify_comment_prefix_semantics ("HEADER ok").data (by decide)

/-! ## C4: inline-style extraction, shared class names, rule dedup -/

mutual

theorem convInline_fst : ∀ (n : LNode) (seen : List String),
    (convInline n seen).1 = pureConvN n
  | .elem i t a ch, seen => by
    cases hs : attrFind a "style" with
    | some sv =>
      by_cases he : pyStripS sv = "" <;>
      by_cases hr : inlineRule (pyStripS sv) ∈ seen <;>
        simp [convInline, pureConvN, hs, he, hr, convInlineList_fst ch]
    | none => simp [convInline, pureConvN, hs, convInlineList_fst ch]
  | .text s, _ => rfl
  | .comment s, _ => rfl

theorem convInlineList_fst : ∀ (f : LForest) (seen : List String),
    (convInlineList f seen).1 = pureConv f
  | .nil, _ => rfl
  | .cons n f, seen => by
    simp [convInlineList, pureConv, convInline_fst n, convInlineList_fst f]

end

theorem get?_pureConv : ∀ (f : LForest) (j : Nat),
    (pureConv f).get? j = (f.get? j).map pureConvN
  | .nil, _ => rfl
  | .cons _ _, 0 => rfl
  | .cons _ f, j + 1 => get?_pureConv f j

theorem nodeAt_pureConv (p : List Nat) (f : LForest) :
    nodeAt (pureConv f) p = (nodeAt f p).map pureConvN := by
  induction p generalizing f with
  | nil => rfl
  | cons j rest ih =>
    cases rest with
    | nil => exact get?_pureConv f j
    | cons k rest' =>
      show nodeAt (pureConv f) (j :: k :: rest') = _
      simp only [nodeAt, get?_pureConv f j]
      cases h : f.get? j with
      | none => rfl
      | some n =>
        cases n with
        | elem i t a ch =>
          cases hs : attrFind a "style" with
          | some sv =>
            by_cases he : pyStripS sv = "" <;> simp [pureConvN, hs, he, ih ch]
          | none => simp [pureConvN, hs, ih ch]
        | text s => rfl
        | comment s => rfl

mutual

theorem convInline_seen : ∀ (n : LNode) (seen : List String),
    (convInline n seen).2.2 = seen ++ (convInline n seen).2.1
  | .elem i t a ch, seen => by
    cases hs : attrFind a "style" with
    | some sv =>
      by_cases he : pyStripS sv = "" <;>
      by_cases hr : inlineRule (pyStripS sv) ∈ seen <;>
        simp [convInline, hs, he, hr, convInlineList_seen ch, List.append_assoc]
    | none => simp [convInline, hs, convInlineList_seen ch]
  | .text s, _ => by simp [convInline]
  | .comment s, _ => by simp [convInline]

theorem convInlineList_seen : ∀ (f : LForest) (seen : List String),
    (convInlineList f seen).2.2 = seen ++ (convInlineList f seen).2.1
  | .nil, _ => by simp [convInlineList]
  | .cons n f, seen => by
    simp [convInlineList, convInline_seen n, convInlineList_seen f, List.append_assoc]

end

theorem mem_convInlineList_seen (f : LForest) (seen : List String) (r : String)
    (h : r ∈ seen) : r ∈ (convInlineList f seen).2.2 := by
  rw [convInlineList_seen]
  exact List.mem_append_left _ h

theorem mem_convInline_seen (n : LNode) (seen : List String) (r : String)
    (h : r ∈ seen) : r ∈ (convInline n seen).2.2 := by
  rw [convInline_seen]
  exact List.mem_append_left _ h

mutual

theorem convInline_count : ∀ (n : LNode) (seen : List String) (r : String),
    ((convInline n seen).2.1).count r =
      if r ∈ (convInline n seen).2.2 ∧ r ∉ seen then 1 else 0
  | .elem i t a ch, seen, r => by
    cases hs : attrFind a "style" with
    | some sv =>
      by_cases he : pyStripS sv = ""
      · simpa [convInline, hs, he] using convInlineList_count ch seen r
      · by_cases hr : inlineRule (pyStripS sv) ∈ seen
        · simpa [convInline, hs, he, hr] using convInlineList_count ch seen r
        · simp only [convInline, hs, he, if_neg, if_false, ite_false]
          have key := convInlineList_count ch (seen ++ [inlineRule (pyStripS sv)]) r
          by_cases hrr : r = inlineRule (pyStripS sv)
          · subst hrr
            have h1 : inlineRule (pyStripS sv) ∈ seen ++ [inlineRule (pyStripS sv)] := by
              simp
            have h2 : inlineRule (pyStripS sv) ∈
                (convInlineList ch (seen ++ [inlineRule (pyStripS sv)])).2.2 :=
              mem_convInlineList_seen _ _ _ h1
            simp [convInline, hs, he, hr, List.count_cons, key, h1, h2]
          · have hne : ¬ (inlineRule (pyStripS sv) = r) := fun hh => hrr hh.symm
            have hmem : (r ∈ seen ++ [inlineRule (pyStripS sv)]) ↔ r ∈ seen := by
              simp [hrr]
            by_cases ha : r ∈ (convInlineList ch (seen ++ [inlineRule (pyStripS sv)])).2.2 <;>
              by_cases hb : r ∈ seen <;>
                simp [convInline, hs, he, hr, List.count_cons, key, hne, hmem, ha, hb]
    | none => simpa [convInline, hs] using convInlineList_count ch seen r
  | .text s, seen, r => by simp [convInline]
  | .comment s, seen, r => by simp [convInline]

theorem convInlineList_count : ∀ (f : LForest) (seen : List String) (r : String),
    ((convInlineList f seen).2.1).count r =
      if r ∈ (convInlineList f seen).2.2 ∧ r ∉ seen then 1 else 0
  | .nil, seen, r => by simp [convInlineList]
  | .cons n f, seen, r => by
    simp only [convInlineList, List.count_append]
    have k1 := convInline_count n seen r
    have k2 := convInlineList_count f (convInline n seen).2.2 r
    have hsub1 : r ∈ seen → r ∈ (convInline n seen).2.2 := mem_convInline_seen n seen r
    have hsub2 : r ∈ (convInline n seen).2.2 →
        r ∈ (convInlineList f (convInline n seen).2.2).2.2 :=
      mem_convInlineList_seen f _ r
    by_cases h1 : r ∈ seen
    · simp [k1, k2, h1, hsub1 h1, hsub2 (hsub1 h1)]
    · by_cases h2 : r ∈ (convInline n seen).2.2
      · simp [k1, k2, h1, h2, hsub2 h2]
      · by_cases h3 : r ∈ (convInlineList f (convInline n seen).2.2).2.2 <;>
          simp [k1, k2, h1, h2, h3]

end

theorem nodeAt_cons_zero (n : LNode) (f : LForest) (rest : List Nat) :
    nodeAt (LForest.cons n f) (0 :: rest) = nodeAtN n rest := by
  cases rest with
  | nil => rfl
  | cons k r => cases n <;> rfl

theorem nodeAt_cons_succ (n : LNode) (f : LForest) (j : Nat) (rest : List Nat) :
    nodeAt (LForest.cons n f) ((j + 1) :: rest) = nodeAt f (j :: rest) := by
  cases rest with
  | nil => rfl
  | cons k r => rfl

theorem styleTrimAt_cons_zero (n : LNode) (f : LForest) (rest : List Nat) :
    styleTrimAt (LForest.cons n f) (0 :: rest) = styleTrimAtN n rest := by
  unfold styleTrimAt styleTrimAtN
  rw [nodeAt_cons_zero]

theorem styleTrimAt_cons_succ (n : LNode) (f : LForest) (j : Nat) (rest : List Nat) :
    styleTrimAt (LForest.cons n f) ((j + 1) :: rest) = styleTrimAt f (j :: rest) := by
  unfold styleTrimAt
  rw [nodeAt_cons_succ]

mutual

theorem convInline_rule_mem : ∀ (n : LNode) (seen : List String) (p : List Nat) (s : String),
    styleTrimAtN n p = some s → s ≠ "" → inlineRule s ∈ (convInline n seen).2.2
  | .elem i t a ch, seen, [], s => by
    intro hp hs
    have hp' : (attrFind a "style").map pyStripS = some s := hp
    cases hsv : attrFind a "style" with
    | none => rw [hsv] at hp'; simp at hp'
    | some sv =>
      rw [hsv] at hp'
      have hsv' : pyStripS sv = s := by
        simpa using hp'
      subst hsv'
      by_cases hr : inlineRule (pyStripS sv) ∈ seen
      · simp only [convInline, hsv, if_neg hs, if_pos hr]
        exact mem_convInlineList_seen ch seen _ hr
      · simp only [convInline, hsv, if_neg hs, if_neg hr]
        exact mem_convInlineList_seen ch _ _ (by simp)
  | .elem i t a ch, seen, j :: rest, s => by
    intro hp hs
    have hp' : styleTrimAt ch (j :: rest) = some s := hp
    cases hsv : attrFind a "style" with
    | some sv =>
      by_cases he : pyStripS sv = ""
      · simp only [convInline, hsv, if_pos he]
        exact convInlineList_rule_mem ch seen (j :: rest) s hp' hs
      · by_cases hr : inlineRule (pyStripS sv) ∈ seen <;>
          simp only [convInline, hsv, if_neg he, if_pos, if_neg] <;>
          exact convInlineList_rule_mem ch _ (j :: rest) s hp' hs
    | none =>
      simp only [convInline, hsv]
      exact convInlineList_rule_mem ch seen (j :: rest) s hp' hs
  | .text str, seen, p, s => by
    intro hp hs
    cases p <;> simp [styleTrimAtN, nodeAtN] at hp
  | .comment str, seen, p, s => by
    intro hp hs
    cases p <;> simp [styleTrimAtN, nodeAtN] at hp

theorem convInlineList_rule_mem : ∀ (f : LForest) (seen : List String) (p : List Nat)
    (s : String), styleTrimAt f p = some s → s ≠ "" →
    inlineRule s ∈ (convInlineList f seen).2.2
  | .nil, seen, p, s => by
    intro hp hs
    cases p with
    | nil => simp [styleTrimAt, nodeAt] at hp
    | cons j rest => cases rest <;> simp [styleTrimAt, nodeAt, LForest.get?] at hp
  | .cons n f, seen, p, s => by
    intro hp hs
    cases p with
    | nil => simp [styleTrimAt, nodeAt] at hp
    | cons j rest =>
      cases j with
      | zero =>
        have hp' : styleTrimAtN n rest = some s := by
          rw [← styleTrimAt_cons_zero n f rest]
          exact hp
        have h1 : inlineRule s ∈ (convInline n seen).2.2 :=
          convInline_rule_mem n seen rest s hp' hs
        simp only [convInlineList]
        exact mem_convInlineList_seen f _ _ h1
      | succ j =>
        have hp' : styleTrimAt f (j :: rest) = some s := by
          rw [← styleTrimAt_cons_succ n f j rest]
          exact hp
        simp only [convInlineList]
        exact convInlineList_rule_mem f _ (j :: rest) s hp' hs

end

theorem attrFind_attrRemove_ne (a : List (String × String)) (n m : String) (h : n ≠ m) :
    attrFind (attrRemove a m) n = attrFind a n :=
  assocFind_attrRemove_ne a n m h

theorem attrFind_attrRemove_self (a : List (String × String)) (m : String) :
    attrFind (attrRemove a m) m = none :=
  assocFind_attrRemove_self a m

theorem attrFind_attrSet_self (a : List (String × String)) (n v : String) :
    attrFind (attrSet a n v) n = some v := by
  show assocFind (attrSet a n v) n = some v
  rw [assocFind_attrSet]
  simp

theorem attrFind_appendClass (a : List (String × String)) (cls : String) :
    attrFind (appendClass a cls) "class" =
      some (joinSpace (pySplitWs ((attrFind a "class").getD "") ++ [cls])) :=
  attrFind_attrSet_self a "class" _

/-- C4: after style-block removal (which leaves elements bearing `style`
attributes untouched), any two elements whose stripped non-empty `style`
attribute text is the same `s` both receive the same synthesized class
name `inline_<h>` — `inlineClass s`, where `<h>` is the first 8 hex
characters of the MD5 digest of `s` — appended to their class list, both
lose the `style` attribute, and the single-selector rule
`.inline_<h> {s}` occurs exactly once among the rules the inline loop
appends to `combined_css`, thanks to deduplication by rule text. -/
theorem C4_inline_style_same_class_single_rule (f : LForest) (s : String) (p q : List Nat)
    (hs : s ≠ "")
    (hp : styleTrimAt (removeStyleBlocks f).1 p = some s)
    (hq : styleTrimAt (removeStyleBlocks f).1 q = some s) :
    (∃ old, classAttrAt (removeStyleBlocks f).1 p = some old ∧
      classAttrAt (extract_style_tags f).1 p =
        some (joinSpace (pySplitWs old ++ [inlineClass s]))) ∧
    (∃ old, classAttrAt (removeStyleBlocks f).1 q = some old ∧
      classAttrAt (extract_style_tags f).1 q =
        some (joinSpace (pySplitWs old ++ [inlineClass s]))) ∧
    styleTrimAt (extract_style_tags f).1 p = none ∧
    styleTrimAt (extract_style_tags f).1 q = none ∧
    ((extract_style_tags f).2.2).count (inlineRule s) = 1 := by
  have hfst : (extract_style_tags f).1 = pureConv (removeStyleBlocks f).1 :=
    convInlineList_fst (removeStyleBlocks f).1 []
  have main : ∀ r : List Nat, styleTrimAt (removeStyleBlocks f).1 r = some s →
      (∃ old, classAttrAt (removeStyleBlocks f).1 r = some old ∧
        classAttrAt (extract_style_tags f).1 r =
          some (joinSpace (pySplitWs old ++ [inlineClass s]))) ∧
      styleTrimAt (extract_style_tags f).1 r = none := by
    intro r hr
    unfold styleTrimAt at hr
    cases hnode : nodeAt (removeStyleBlocks f).1 r with
    | none => rw [hnode] at hr; simp at hr
    | some n =>
      rw [hnode] at hr
      cases n with
      | text str => simp at hr
      | comment str => simp at hr
      | elem i t a ch =>
        have hr' : (attrFind a "style").map pyStripS = some s := hr
        cases hsv : attrFind a "style" with
        | none => rw [hsv] at hr'; simp at hr'
        | some sv =>
          rw [hsv] at hr'
          have hsv' : pyStripS sv = s := by simpa using hr'
          have hnode2 : nodeAt (extract_style_tags f).1 r =
              some (pureConvN (.elem i t a ch)) := by
            rw [hfst, nodeAt_pureConv, hnode]
            rfl
          have hif : pureConvN (.elem i t a ch) =
              (if pyStripS sv = "" then LNode.elem i t a (pureConv ch)
               else LNode.elem i t
                 (attrRemove (appendClass a (inlineClass (pyStripS sv))) "style")
                 (pureConv ch)) := by
            unfold pureConvN
            rw [hsv]
          have hpcn : pureConvN (.elem i t a ch) =
              .elem i t (attrRemove (appendClass a (inlineClass s)) "style")
                (pureConv ch) := by
            rw [hif, hsv', if_neg hs]
          refine ⟨⟨(attrFind a "class").getD "", ?_, ?_⟩, ?_⟩
          · unfold classAttrAt
            rw [hnode]
          · unfold classAttrAt
            rw [hnode2, hpcn]
            show some ((attrFind (attrRemove (appendClass a (inlineClass s)) "style")
              "class").getD "") = _
            rw [attrFind_attrRemove_ne _ _ _ (by decide), attrFind_appendClass]
            rfl
          · unfold styleTrimAt
            rw [hnode2, hpcn]
            show (attrFind (attrRemove (appendClass a (inlineClass s)) "style")
              "style").map pyStripS = none
            rw [attrFind_attrRemove_self]
            rfl
  refine ⟨(main p hp).1, (main q hq).1, (main p hp).2, (main q hq).2, ?_⟩
  have hsnd : (extract_style_tags f).2.2 =
      (convInlineList (removeStyleBlocks f).1 []).2.1 := rfl
  rw [hsnd, convInlineList_count]
  have hm : inlineRule s ∈ (convInlineList (removeStyleBlocks f).1 []).2.2 :=
    convInlineList_rule_mem _ [] p s hp hs
  simp [hm]

/-- Witness for C4: two elements with stripped style text `color:red`
(one of them surrounded by whitespace) share one class and one rule. -/
theorem C4_inline_style_same_class_single_rule_witness :
    ((extract_style_tags (LForest.ofList
        [LNode.elem 0 "div" [("style", "color:red")] (LForest.ofList
          [LNode.elem 1 "span" [("style", "  color:red  ")] (LForest.ofList []),
           LNode.elem 2 "p" [("style", "color:blue")] (LForest.ofList [])])])).2.2).count
      (inlineRule "color:red") = 1 :=
  (C4_inline_style_same_class_single_rule (LForest.ofList
        [LNode.elem 0 "div" [("style", "color:red")] (LForest.ofList
          [LNode.elem 1 "span" [("style", "  color:red  ")] (LForest.ofList []),
           LNode.elem 2 "p" [("style", "color:blue")] (LForest.ofList [])])])
      "color:red" [0] [0, 0] (by decide) rfl rfl).2.2.2.2

/-! ## C7: the empty-tag pass is a single non-recursive sweep

The loop at lines 188-190 iterates over a `find_all` snapshot while
decomposing nodes from the live tree.  The theorems below prove that,
whenever element identities are distinct, this loop is extensionally the
specification's single sweep `pruneEmptySpec`, which judges each
`div`/`span`/`p` against its own subtree in the *input*: a removed node
has no element descendants, so no later snapshot entry sits inside it,
and a node is judged before anything below it changes — hence nodes that
only become empty through removals are never removed. -/

mutual

theorem findByIdN_none : ∀ (i : Nat) (n : LNode), i ∉ allIdsN n → findByIdN i n = none
  | i, .elem j t a ch, h => by
    have h' : ¬ (i = j) ∧ i ∉ allIds ch := by simpa [allIdsN] using h
    have hji : ¬ (j = i) := fun hh => h'.1 (Eq.symm hh)
    simp only [findByIdN]
    rw [if_neg hji]
    exact findById_none i ch h'.2
  | _, .text _, _ => rfl
  | _, .comment _, _ => rfl

theorem findById_none : ∀ (i : Nat) (f : LForest), i ∉ allIds f → findById i f = none
  | _, .nil, _ => rfl
  | i, .cons n f, h => by
    have h' : i ∉ allIdsN n ∧ i ∉ allIds f := by
      simpa [allIds, List.mem_append, not_or] using h
    simp only [findById, findByIdN_none i n h'.1]
    exact findById_none i f h'.2

end

theorem removeById_none : ∀ (i : Nat) (f : LForest), i ∉ allIds f → removeById i f = f
  | _, .nil, _ => rfl
  | i, .cons (.elem j t a ch) f, h => by
    have h' : ¬ (i = j) ∧ i ∉ allIds ch ∧ i ∉ allIds f := by
      simpa [allIds, allIdsN, List.mem_append, not_or] using h
    have hji : ¬ (j = i) := fun hh => h'.1 (Eq.symm hh)
    simp only [removeById]
    rw [if_neg hji, removeById_none i ch h'.2.1, removeById_none i f h'.2.2]
  | i, .cons (.text s) f, h => by
    have h' : i ∉ allIds f := by simpa [allIds, allIdsN] using h
    simp only [removeById]
    rw [removeById_none i f h']
  | i, .cons (.comment s) f, h => by
    have h' : i ∉ allIds f := by simpa [allIds, allIdsN] using h
    simp only [removeById]
    rw [removeById_none i f h']

theorem removeById_cons_head (i : Nat) (n : LNode) (f : LForest) (h : i ∉ allIdsN n) :
    removeById i (.cons n f) = .cons n (removeById i f) := by
  cases n with
  | elem j t a ch =>
    have h' : ¬ (i = j) ∧ i ∉ allIds ch := by simpa [allIdsN] using h
    have hji : ¬ (j = i) := fun hh => h'.1 (Eq.symm hh)
    simp only [removeById]
    rw [if_neg hji, removeById_none i ch h'.2]
  | text s => rfl
  | comment s => rfl

theorem runPruneLoop_cons_none (i : Nat) (is : List Nat) (f : LForest)
    (h : findById i f = none) : runPruneLoop (i :: is) f = runPruneLoop is f := by
  show (match findById i f with
    | some n =>
      if emptyCond n then runPruneLoop is (removeById i f) else runPruneLoop is f
    | none => runPruneLoop is f) = runPruneLoop is f
  rw [h]

theorem runPruneLoop_cons_some (i : Nat) (is : List Nat) (f : LForest) (n : LNode)
    (h : findById i f = some n) :
    runPruneLoop (i :: is) f =
      (if emptyCond n then runPruneLoop is (removeById i f) else runPruneLoop is f) := by
  show (match findById i f with
    | some n =>
      if emptyCond n then runPruneLoop is (removeById i f) else runPruneLoop is f
    | none => runPruneLoop is f) = _
  rw [h]

mutual

theorem pruneSnapshotN_sub : ∀ (n : LNode) (x : Nat),
    x ∈ pruneSnapshotN n → x ∈ allIdsN n
  | .elem j t a ch, x, h => by
    simp only [pruneSnapshotN, List.mem_append] at h
    simp only [allIdsN, List.mem_cons]
    rcases h with h | h
    · left
      by_cases ht : t ∈ prunableTags
      · simpa [ht] using h
      · simp [ht] at h
    · exact Or.inr (pruneSnapshot_sub ch x h)
  | .text _, x, h => by simp [pruneSnapshotN] at h
  | .comment _, x, h => by simp [pruneSnapshotN] at h

theorem pruneSnapshot_sub : ∀ (f : LForest) (x : Nat),
    x ∈ pruneSnapshot f → x ∈ allIds f
  | .nil, x, h => by simp [pruneSnapshot] at h
  | .cons n f, x, h => by
    simp only [pruneSnapshot, List.mem_append] at h
    simp only [allIds, List.mem_append]
    rcases h with h | h
    · exact Or.inl (pruneSnapshotN_sub n x h)
    · exact Or.inr (pruneSnapshot_sub f x h)

end

theorem runPruneLoop_absent (is : List Nat) (f : LForest)
    (h : ∀ i ∈ is, i ∉ allIds f) : runPruneLoop is f = f := by
  induction is with
  | nil => rfl
  | cons i is ih =>
    rw [runPruneLoop_cons_none i is f (findById_none i f (h i (List.mem_cons_self i is)))]
    exact ih (fun x hx => h x (List.mem_cons_of_mem _ hx))

theorem runPruneLoop_append (is1 is2 : List Nat) (f : LForest) :
    runPruneLoop (is1 ++ is2) f = runPruneLoop is2 (runPruneLoop is1 f) := by
  induction is1 generalizing f with
  | nil => rfl
  | cons i is1 ih =>
    rw [List.cons_append]
    cases h : findById i f with
    | none =>
      rw [runPruneLoop_cons_none i (is1 ++ is2) f h, runPruneLoop_cons_none i is1 f h]
      exact ih f
    | some n =>
      rw [runPruneLoop_cons_some i (is1 ++ is2) f n h, runPruneLoop_cons_some i is1 f n h]
      by_cases he : emptyCond n
      · rw [if_pos he, if_pos he]
        exact ih (removeById i f)
      · rw [if_neg he, if_neg he]
        exact ih f

theorem runPruneLoop_descend (is : List Nat) (i : Nat) (t : String)
    (a : List (String × String)) (ch : LForest) (f : LForest)
    (h : ∀ x ∈ is, x ≠ i ∧ x ∉ allIds f) :
    runPruneLoop is (.cons (.elem i t a ch) f) =
      .cons (.elem i t a (runPruneLoop is ch)) f := by
  induction is generalizing ch with
  | nil => rfl
  | cons x is ih =>
    have hx := h x (List.mem_cons_self x is)
    have hxi : ¬ (i = x) := fun hh => hx.1 (Eq.symm hh)
    have hrest : ∀ y ∈ is, y ≠ i ∧ y ∉ allIds f :=
      fun y hy => h y (List.mem_cons_of_mem _ hy)
    have hfind : findById x (.cons (.elem i t a ch) f) = findById x ch := by
      simp only [findById, findByIdN]
      rw [if_neg hxi]
      cases hch : findById x ch with
      | none => exact findById_none x f hx.2
      | some m => rfl
    cases hch : findById x ch with
    | none =>
      rw [runPruneLoop_cons_none x is _ (hfind.trans hch), runPruneLoop_cons_none x is ch hch]
      exact ih ch hrest
    | some m =>
      rw [runPruneLoop_cons_some x is _ m (hfind.trans hch),
        runPruneLoop_cons_some x is ch m hch]
      by_cases he : emptyCond m
      · rw [if_pos he, if_pos he]
        have hrem : removeById x (.cons (.elem i t a ch) f) =
            .cons (.elem i t a (removeById x ch)) f := by
          simp only [removeById]
          rw [if_neg hxi, removeById_none x f hx.2]
        rw [hrem]
        exact ih (removeById x ch) hrest
      · rw [if_neg he, if_neg he]
        exact ih ch hrest

theorem runPruneLoop_skip_head (is : List Nat) (n : LNode) (f : LForest)
    (h : ∀ x ∈ is, x ∉ allIdsN n) :
    runPruneLoop is (.cons n f) = .cons n (runPruneLoop is f) := by
  induction is generalizing f with
  | nil => rfl
  | cons x is ih =>
    have hx := h x (List.mem_cons_self x is)
    have hrest : ∀ y ∈ is, y ∉ allIdsN n := fun y hy => h y (List.mem_cons_of_mem _ hy)
    have hfind : findById x (.cons n f) = findById x f := by
      simp only [findById, findByIdN_none x n hx]
    cases hf : findById x f with
    | none =>
      rw [runPruneLoop_cons_none x is _ (hfind.trans hf), runPruneLoop_cons_none x is f hf]
      exact ih f hrest
    | some m =>
      rw [runPruneLoop_cons_some x is _ m (hfind.trans hf),
        runPruneLoop_cons_some x is f m hf]
      by_cases he : emptyCond m
      · rw [if_pos he, if_pos he, removeById_cons_head x n f hx]
        exact ih (removeById x f) hrest
      · rw [if_neg he, if_neg he]
        exact ih f hrest

mutual

theorem allIdsN_pruneEmptySpecN : ∀ (n : LNode) (x : Nat),
    x ∈ allIdsN (pruneEmptySpecN n) → x ∈ allIdsN n
  | .elem i t a ch, x, h => by
    simp only [pruneEmptySpecN, allIdsN, List.mem_cons] at h ⊢
    rcases h with h | h
    · exact Or.inl h
    · exact Or.inr (allIds_pruneEmptySpec ch x h)
  | .text _, x, h => h
  | .comment _, x, h => h

theorem allIds_pruneEmptySpec : ∀ (f : LForest) (x : Nat),
    x ∈ allIds (pruneEmptySpec f) → x ∈ allIds f
  | .nil, x, h => h
  | .cons n f, x, h => by
    simp only [allIds, List.mem_append]
    by_cases hp : prunable n
    · simp only [pruneEmptySpec, if_pos hp] at h
      exact Or.inr (allIds_pruneEmptySpec f x h)
    · simp only [pruneEmptySpec, if_neg hp, allIds, List.mem_append] at h
      rcases h with h | h
      · exact Or.inl (allIdsN_pruneEmptySpecN n x h)
      · exact Or.inr (allIds_pruneEmptySpec f x h)

end

mutual

theorem pruneLoop_node : ∀ (n : LNode) (f : LForest),
    (allIdsN n).Nodup → (∀ x ∈ allIdsN n, x ∉ allIds f) →
    runPruneLoop (pruneSnapshotN n) (.cons n f) =
      (if prunable n then f else .cons (pruneEmptySpecN n) f)
  | .text s, f, _, _ => by
    simp [pruneSnapshotN, runPruneLoop, prunable, pruneEmptySpecN]
  | .comment s, f, _, _ => by
    simp [pruneSnapshotN, runPruneLoop, prunable, pruneEmptySpecN]
  | .elem i t a ch, f, hnd, hdis => by
    have hnd' : i ∉ allIds ch ∧ (allIds ch).Nodup := by simpa [allIdsN] using hnd
    have hdisi : i ∉ allIds f := hdis i (by simp [allIdsN])
    have hdisch : ∀ x ∈ allIds ch, x ∉ allIds f := fun x hx =>
      hdis x (by simp [allIdsN, hx])
    have hdesc : ∀ x ∈ pruneSnapshot ch, x ≠ i ∧ x ∉ allIds f := fun x hx =>
      ⟨fun hh => hnd'.1 (hh ▸ pruneSnapshot_sub ch x hx),
        hdisch x (pruneSnapshot_sub ch x hx)⟩
    by_cases ht : t ∈ prunableTags
    · have hsnap : pruneSnapshotN (.elem i t a ch) = i :: pruneSnapshot ch := by
        simp [pruneSnapshotN, ht]
      rw [hsnap]
      have hfindi : findById i (.cons (.elem i t a ch) f) = some (.elem i t a ch) := by
        simp [findById, findByIdN]
      by_cases he : emptyCond (.elem i t a ch)
      · rw [runPruneLoop_cons_some i _ _ _ hfindi, if_pos he]
        have hremove : removeById i (.cons (.elem i t a ch) f) = f := by
          simp only [removeById]
          simp [removeById_none i f hdisi]
        rw [hremove,
          runPruneLoop_absent (pruneSnapshot ch) f
            (fun x hx => hdisch x (pruneSnapshot_sub ch x hx)),
          if_pos (by simp [prunable, ht, he])]
      · rw [runPruneLoop_cons_some i _ _ _ hfindi, if_neg he,
          runPruneLoop_descend (pruneSnapshot ch) i t a ch f hdesc,
          pruneLoop_forest ch hnd'.2,
          if_neg (by simp [prunable, he])]
        rfl
    · have hsnap : pruneSnapshotN (.elem i t a ch) = pruneSnapshot ch := by
        simp [pruneSnapshotN, ht]
      rw [hsnap,
        runPruneLoop_descend (pruneSnapshot ch) i t a ch f hdesc,
        pruneLoop_forest ch hnd'.2,
        if_neg (by simp [prunable, ht])]
      rfl

theorem pruneLoop_forest : ∀ (f : LForest), (allIds f).Nodup →
    runPruneLoop (pruneSnapshot f) f = pruneEmptySpec f
  | .nil, _ => rfl
  | .cons n f, hnd => by
    have h3 : (allIdsN n).Nodup ∧ (allIds f).Nodup ∧ (allIdsN n).Disjoint (allIds f) := by
      simpa [allIds, List.nodup_append] using hnd
    have hsnap : pruneSnapshot (.cons n f) = pruneSnapshotN n ++ pruneSnapshot f := rfl
    rw [hsnap, runPruneLoop_append,
      pruneLoop_node n f h3.1 (fun x hx => h3.2.2 hx)]
    by_cases hp : prunable n
    · rw [if_pos hp, pruneLoop_forest f h3.2.1]
      simp [pruneEmptySpec, hp]
    · rw [if_neg hp,
        runPruneLoop_skip_head (pruneSnapshot f) (pruneEmptySpecN n) f
          (fun x hx hmem =>
            h3.2.2 (allIdsN_pruneEmptySpecN n x hmem) (pruneSnapshot_sub f x hx)),
        pruneLoop_forest f h3.2.1]
      simp [pruneEmptySpec, hp]

end

/-- C7: when element identities are distinct, the empty-tag loop of
`clean_html` — which iterates a `find_all(["div","span","p"])` snapshot
and re-evaluates emptiness against the mutated tree — is exactly the
single non-recursive sweep `pruneEmptySpec` that removes precisely the
nodes with no non-whitespace text and no element children *in the
input*; a node left non-empty in the input (such as a `div` whose only
child is an empty `p`) survives even though it is empty afterwards; and
in the scenario document the `<p style="color:red"></p>` node is removed
by the cleaning stage before style extraction, so the extraction stage
produces no `inline_*` class or rule for it. -/
theorem C7_empty_prune_single_pass (f : LForest) (hnd : (allIds f).Nodup) :
    removeEmptyLoop f = pruneEmptySpec f ∧
    removeEmptyLoop (LForest.ofList [LNode.elem 0 "div" [] (LForest.ofList
        [LNode.elem 1 "p" [] (LForest.ofList [])])]) =
      LForest.ofList [LNode.elem 0 "div" [] (LForest.ofList [])] ∧
    extract_style_tags (semantic_conversion (clean_html (LForest.ofList
        [LNode.elem 0 "div" [] (LForest.ofList
          [LNode.elem 1 "p" [("style", "color:red")] (LForest.ofList []),
           LNode.elem 2 "p" [] (LForest.ofList [LNode.text "Hi"])])]))) =
      (LForest.ofList [LNode.elem 0 "div" [] (LForest.ofList
          [LNode.elem 2 "p" [] (LForest.ofList [LNode.text "Hi"])])], [], []) :=
  ⟨pruneLoop_forest f hnd, rfl, rfl⟩

/-- Witness for C7: an empty `span` is removed and a `p` with text is
kept on a concrete document with distinct labels. -/
theorem C7_empty_prune_single_pass_witness :
    removeEmptyLoop (LForest.ofList [LNode.elem 3 "span" [] (LForest.ofList []),
        LNode.elem 4 "p" [] (LForest.ofList [LNode.text "x"])]) =
      pruneEmptySpec (LForest.ofList [LNode.elem 3 "span" [] (LForest.ofList []),
        LNode.elem 4 "p" [] (LForest.ofList [LNode.text "x"])]) :=
  (C7_empty_prune_single_pass (LForest.ofList
      [LNode.elem 3 "span" [] (LForest.ofList []),
       LNode.elem 4 "p" [] (LForest.ofList [LNode.text "x"])]) (by decide)).1

end MasterV2
